import Mathlib

/-!
Verification of the run-lifecycle core of gage (`src/gage/_internal/run_util.py`
and `src/gage/_internal/var.py`) against its specification.

The Python source is shallowly embedded: pure logic becomes Lean functions,
stateful code becomes explicit state passing, the file system and child
processes become explicit values passed to the embedded functions, and
Python exceptions become `Except`.  Python `dict`s (which preserve insertion
order) are embedded as association lists with Python's update semantics.
-/

namespace VistaML

/-! ## Python dict embedding

Python 3.7+ dicts preserve insertion order: assigning to an existing key
keeps its position, assigning a fresh key appends it, `pop` removes it and a
later re-insert appends at the end.  `run_util.py` relies on this order (the
manifest is written in dict order, delete events are appended in dict order). -/

/-- `m.get(k)` — `none` when the key is missing. -/
def pyGet? {β : Type} (m : List (String × β)) (k : String) : Option β :=
  (m.find? (fun p => p.1 == k)).map (fun p => p.2)

/-- `k in m`. -/
def pyHas {β : Type} (m : List (String × β)) (k : String) : Bool :=
  m.any (fun p => p.1 == k)

/-- `m[k] = v` with Python dict semantics: update in place when the key
exists, append otherwise. -/
def pySet {β : Type} (m : List (String × β)) (k : String) (v : β) :
    List (String × β) :=
  if pyHas m k then m.map (fun p => if p.1 == k then (k, v) else p)
  else m ++ [(k, v)]

/-- `m.pop(k, None)` (only the resulting dict; the popped value is unused by
the source). -/
def pyPop {β : Type} (m : List (String × β)) (k : String) : List (String × β) :=
  m.filter (fun p => p.1 != k)

/-- The association list has pairwise distinct keys — an invariant of every
dict built by `pySet`/`pyPop`. -/
def KeysNodup {β : Type} (m : List (String × β)) : Prop :=
  (m.map (fun p => p.1)).Nodup

/-! ## Timestamp service (`run_timestamp`, run_util.py lines 169-179)

`run_timestamp` reads `time.time_ns() // 1000` and, under `__last_ts_lock`,
forces the result to `__last_ts + 1` whenever the fresh reading is not
strictly greater than the last issued value.  The wall clock is embedded as
an arbitrary sequence of integer microsecond readings. -/

/-- One call of `run_timestamp`: `clock` is the fresh `time.time_ns() // 1000`
reading, `last` the module-level `__last_ts`.  Returns the issued timestamp
and the new `__last_ts`. -/
def runTimestampStep (clock : Int) (last : Option Int) : Int × Option Int :=
  let ts := match last with
    | some l => if l ≥ clock then l + 1 else clock
    | none => clock
  (ts, some ts)

/-- A sequence of `run_timestamp` calls within one process, one per wall-clock
reading, threading the `__last_ts` state. -/
def runTimestampSeq (clocks : List Int) (last : Option Int) : List Int :=
  match clocks with
  | [] => []
  | c :: cs =>
    let r := runTimestampStep c last
    r.1 :: runTimestampSeq cs r.2

/-! ## File change log data model (run_util.py lines 481-482, 547-551)

`LoggedFileEvent = Literal["a", "d", "m"]` and
`LoggedFileType = Literal["s", "d", "r"]` (sourcecode / dependency /
runtime). -/

/-- Event code of a logged file event: `"a"`dd, `"d"`elete, `"m"`odify. -/
inductive FEvent
  | a
  | d
  | m
deriving DecidableEq

/-- Phase type code of a logged file event: `"s"`ourcecode, `"d"`ependency,
`"r"`untime. -/
inductive FType
  | s
  | d
  | r
deriving DecidableEq

/-- `class LoggedFile(NamedTuple)` — the `modified` field is
`int | None` (microseconds). -/
structure LoggedFile where
  event : FEvent
  type : FType
  modified : Option Int
  path : String
deriving DecidableEq

/-! ## Integer printing and parsing

`_encode_logged_file` renders `modified` with `str()`, and
`_decode_files_log_line` parses it back with `int()`.  Decimal printing is
embedded with an explicit fuel (`natDigitsRev n` is total and structurally
recursive, with fuel `n` itself); `pyParseInt` embeds `int()` restricted to
an optional sign followed by ASCII digits, the only shapes the log ever
contains. -/

/-- The ASCII digit character for `d < 10`. -/
def digitChar (d : Nat) : Char := Char.ofNat (48 + d)

/-- Decimal digits of `n`, least significant first, with explicit fuel. -/
def natDigitsRev (fuel : Nat) (n : Nat) : List Char :=
  match fuel with
  | 0 => []
  | f + 1 => if n = 0 then [] else digitChar (n % 10) :: natDigitsRev f (n / 10)

/-- Python `str()` of a nonnegative integer. -/
def pyStrNat (n : Nat) : String :=
  if n = 0 then "0" else String.mk (natDigitsRev n n).reverse

/-- Python `str()` of an integer. -/
def pyStrInt (i : Int) : String :=
  if i < 0 then "-" ++ pyStrNat i.natAbs else pyStrNat i.natAbs

/-- Value of a big-endian ASCII digit string. -/
def digitsVal (cs : List Char) : Nat :=
  cs.foldl (fun a c => 10 * a + (c.toNat - 48)) 0

/-- Parse a nonempty all-digit character list, else fail. -/
def parseDigits (cs : List Char) : Option Nat :=
  if cs ≠ [] ∧ cs.all Char.isDigit then some (digitsVal cs) else none

/-- Python `int()` on the strings at hand: an optional `-`/`+` sign followed
by ASCII decimal digits (surrounding whitespace, underscores and non-ASCII
digits never occur in the log's `modified` field). -/
def pyParseInt (s : String) : Option Int :=
  match s.data with
  | [] => none
  | c :: cs =>
    if c = '-' then (parseDigits cs).map (fun n => -(Int.ofNat n))
    else if c = '+' then (parseDigits cs).map Int.ofNat
    else (parseDigits (c :: cs)).map Int.ofNat

/-! ## Log line encoding (`_encode_logged_file`, run_util.py lines 598-599) -/

/-- The one-character event code. -/
def eventStr : FEvent → String
  | .a => "a"
  | .d => "d"
  | .m => "m"

/-- The one-character type code. -/
def typeStr : FType → String
  | .s => "s"
  | .d => "d"
  | .r => "r"

/-- `f.modified or '-'`: Python truthiness renders both `None` and `0` as
`"-"`. -/
def encodeModified : Option Int → String
  | none => "-"
  | some m => if m = 0 then "-" else pyStrInt m

/-- `f"{file.event} {file.type} {file.modified or '-'} {file.path}\n"`. -/
def encodeLoggedFile (f : LoggedFile) : String :=
  eventStr f.event ++ " " ++ typeStr f.type ++ " " ++ encodeModified f.modified
    ++ " " ++ f.path ++ "\n"

/-! ## Log line decoding (`_decode_files_log_line`, run_util.py lines 575-591) -/

/-- Split off everything before the first occurrence of `c`; `none` when `c`
does not occur. -/
def splitOnceChar (c : Char) : List Char → Option (List Char × List Char)
  | [] => none
  | x :: xs =>
    if x = c then some ([], xs)
    else (splitOnceChar c xs).map (fun r => (x :: r.1, r.2))

/-- Python `s.split(c, n)`: split on `c` at most `n` times; the last piece
keeps any further occurrences of `c`. -/
def pySplitMax (c : Char) (n : Nat) (s : List Char) : List (List Char) :=
  match n with
  | 0 => [s]
  | k + 1 =>
    match splitOnceChar c s with
    | none => [s]
    | some r => r.1 :: pySplitMax c k r.2

/-- The `modified` field: `"-"` decodes to `None`, otherwise `int()` must
succeed (a `ValueError` is re-raised as `TypeError`). -/
def decodeModified (mo : List Char) : Except Unit (Option Int) :=
  if mo = ['-'] then .ok none
  else
    match pyParseInt (String.mk mo) with
    | some m => .ok (some m)
    | none => .error ()

/-- `if event not in ("a", "d", "m"): raise TypeError()`. -/
def decodeEventCode (ev : List Char) : Except Unit FEvent :=
  if ev = ['a'] then .ok .a
  else if ev = ['d'] then .ok .d
  else if ev = ['m'] then .ok .m
  else .error ()

/-- `if type not in ("s", "d", "r"): raise TypeError()`. -/
def decodeTypeCode (ty : List Char) : Except Unit FType :=
  if ty = ['s'] then .ok .s
  else if ty = ['d'] then .ok .d
  else if ty = ['r'] then .ok .r
  else .error ()

/-- `_decode_files_log_line`: split into at most 4 space-separated fields
(the path keeps any embedded spaces), require exactly 4, then decode
`modified`, the event code and the type code in the source's order. -/
def decodeFilesLogLine (line : String) : Except Unit LoggedFile :=
  match pySplitMax ' ' 3 line.data with
  | [ev, ty, mo, pa] =>
    match decodeModified mo with
    | .error e => .error e
    | .ok modified =>
      match decodeEventCode ev with
      | .error e => .error e
      | .ok event =>
        match decodeTypeCode ty with
        | .error e => .error e
        | .ok type => .ok ⟨event, type, modified, String.mk pa⟩
  | _ => .error ()

/-! ## Reading the files log (`_iter_files_log`, run_util.py lines 554-572)

`_iter_files_log` first checks the meta schema, then decodes the log line by
line (each line `rstrip`ped).  On a `TypeError` from
`_decode_files_log_line` it raises
`TypeError("bad encoding in \"{filename}\", line {lineno}: {line!r}")` —
written in the source WITHOUT an `f` prefix, so the braces are literal text
and neither the file name nor the line number is interpolated.  The embedded
error message below is that literal string. -/

/-- `META_SCHEMA = "1"`. -/
def META_SCHEMA : String := "1"

/-- Python's whitespace set for `str.rstrip()`. -/
def pyIsSpace (c : Char) : Bool :=
  c == ' ' || c == '\t' || c == '\n' || c == '\r' || c == '\x0b' || c == '\x0c'

/-- `s.rstrip()`. -/
def pyRstrip (s : String) : String :=
  String.mk (s.data.reverse.dropWhile pyIsSpace).reverse

/-- The exact text of the `TypeError` raised for a malformed log line: the
source string has no `f` prefix, so `\x7bfilename\x7d`, `\x7blineno\x7d` and
`\x7bline!r\x7d` are literal, never interpolated. -/
def filesLogErrorMsg : String :=
  "bad encoding in \x22\x7bfilename\x7d\x22, line \x7blineno\x7d: \x7bline!r\x7d"

/-- The exceptions `_iter_files_log` can raise. -/
inductive LogReadError
  | schemaError (schema : String)
  | badEncoding (msg : String)
deriving DecidableEq

/-- The decoding loop of `_iter_files_log`: `lineno` is tracked exactly as in
the source, but the raised message is the constant `filesLogErrorMsg`
(missing `f` prefix), so `lineno` never reaches it. -/
def iterFilesLogAux : List String → Nat → Except LogReadError (List LoggedFile)
  | [], _ => .ok []
  | line :: rest, lineno =>
    match decodeFilesLogLine (pyRstrip line) with
    | .error _ => .error (.badEncoding filesLogErrorMsg)
    | .ok lf =>
      match iterFilesLogAux rest (lineno + 1) with
      | .error e => .error e
      | .ok lfs => .ok (lf :: lfs)

/-- `_iter_files_log`: schema gate, then decode all lines.  A missing log
file yields `[]` in the source; callers pass the file's lines here. -/
def iterFilesLog (schema : String) (lines : List String) :
    Except LogReadError (List LoggedFile) :=
  if schema ≠ META_SCHEMA then .error (.schemaError schema)
  else iterFilesLogAux lines 1

/-! ## Log fold and manifest finalization
(`_reduce_files_log` lines 437-445, `_finalize_staged_files` lines 420-427) -/

/-- One step of `_reduce_files_log`'s loop: `"a"` sets `paths[path] = type`,
`"d"` pops the path, and `"m"` falls through both branches (no `elif` for
it). -/
def reduceStep (m : List (String × FType)) (lf : LoggedFile) : List (String × FType) :=
  match lf.event with
  | .a => pySet m lf.path lf.type
  | .d => pyPop m lf.path
  | .m => m

/-- `_reduce_files_log`: fold the whole log, then yield `(type, path)` in
dict order. -/
def reduceFilesLog (log : List LoggedFile) : List (FType × String) :=
  (log.foldl reduceStep []).map (fun p => (p.2, p.1))

/-- Modelled from the spec (comparison definition, not from the source):
"fold the entire file-change log ... only the latest type tag per path is
retained" / "last event per path wins, `delete` removing the path" — here a
`modify` event also re-tags (and re-inserts) its path. -/
def specFoldFilesLog (log : List LoggedFile) : List (FType × String) :=
  (log.foldl (fun m lf =>
    match lf.event with
    | .d => pyPop m lf.path
    | _ => pySet m lf.path lf.type) []).map (fun p => (p.2, p.1))

/-- The effect of `_finalize_staged_files`: the read-only markings applied
(`set_readonly`, in order) and the manifest entries appended
(`m.add(type, digest, path)`, in order). -/
structure FinalizeResult where
  readonlyPaths : List String
  manifest : List (FType × String × String)
deriving DecidableEq

/-- `_finalize_staged_files`, with the file system abstracted: `contents`
gives each file's bytes and `sha256` the digest function (`file_sha256`
hashes the full file bytes).  For each `(type, path)` from
`_reduce_files_log`, in order: mark read-only, digest, append a manifest
entry. -/
def finalizeStagedFiles (sha256 : List Nat → String) (contents : String → List Nat)
    (log : List LoggedFile) : FinalizeResult :=
  (reduceFilesLog log).foldl
    (fun acc tp =>
      { readonlyPaths := acc.readonlyPaths ++ [tp.2],
        manifest := acc.manifest ++ [(tp.1, sha256 (contents tp.2), tp.2)] })
    ⟨[], []⟩

/-- The most recent log event for path `p` (the last matching line). -/
def lastEvent (log : List LoggedFile) (p : String) : Option LoggedFile :=
  log.reverse.find? (fun lf => lf.path == p)

/-- The most recent add-or-delete log event for path `p` (modify events
skipped). -/
def lastAD (log : List LoggedFile) (p : String) : Option LoggedFile :=
  log.reverse.find? (fun lf => lf.path == p && !(lf.event == FEvent.m))

/-! ## File-log scans
(`_apply_log_files` lines 507-524, `_init_pre_files_index` lines 540-544) -/

/-- A file found on disk during `_iter_run_files`: its path relative to the
run directory and `int(entry.stat().st_mtime * 1_000_000)`. -/
structure DiskFile where
  path : String
  mtime : Int
deriving DecidableEq

/-- `_init_pre_files_index`: `{path: modified for event, type, modified, path
in _iter_files_log(run)}` — a dict comprehension, so the LAST event per path
wins and a delete event KEEPS its path, mapped to `None`. -/
def initPreFilesIndex (log : List LoggedFile) : List (String × Option Int) :=
  log.foldl (fun m lf => pySet m lf.path lf.modified) []

/-- The event (if any) `_apply_log_files`'s first loop writes for one disk
entry: `pre_modified = pre_files.get(relpath)`; skip when
`modified == pre_modified` (an `int` never equals `None`); else `"a"` when
`pre_modified is None`, `"m"` otherwise. -/
def scanDiskEvent (pre : List (String × Option Int)) (t : FType) (df : DiskFile) :
    Option LoggedFile :=
  match pyGet? pre df.path with
  | some (some m) =>
    if df.mtime = m then none else some ⟨FEvent.m, t, some df.mtime, df.path⟩
  | some none => some ⟨FEvent.a, t, some df.mtime, df.path⟩
  | none => some ⟨FEvent.a, t, some df.mtime, df.path⟩

/-- `_apply_log_files`: the events appended to the files log by one scan —
the disk loop's events in enumeration order, then a `"d"` event (with `None`
timestamp) for every indexed path not seen on disk, in dict order. -/
def applyLogFiles (log : List LoggedFile) (disk : List DiskFile) (t : FType) :
    List LoggedFile :=
  let pre := initPreFilesIndex log
  let adds := disk.filterMap (scanDiskEvent pre t)
  let seen := disk.map (fun df => df.path)
  let dels := pre.filterMap
    (fun p => if p.1 ∈ seen then none else some ⟨FEvent.d, t, none, p.1⟩)
  adds ++ dels

/-- The three file-log scans of one `stage_run` (sourcecode, then runtime,
then dependency — `apply_config` does not scan), each appending to the log
the previous scans already extended; returns all events appended by this
stage. -/
def stageScans (log : List LoggedFile) (disk : List DiskFile) : List LoggedFile :=
  let e1 := applyLogFiles log disk FType.s
  let e2 := applyLogFiles (log ++ e1) disk FType.r
  let e3 := applyLogFiles (log ++ e1 ++ e2) disk FType.d
  e1 ++ e2 ++ e3

/-- Modelled from the spec (comparison definition, not from the source): the
"previously-known set" as "the set reconstructed by folding all prior log
entries", where a `delete` REMOVES the path. -/
def specKnownFiles (log : List LoggedFile) : List (String × Option Int) :=
  log.foldl (fun m lf =>
    match lf.event with
    | .d => pyPop m lf.path
    | _ => pySet m lf.path lf.modified) []

/-- Modelled from the spec (comparison definition, not from the source): the
scan as the claim states it — new path → add, known path with differing
stored time → modify, previously-known path absent from disk → delete. -/
def specScan (log : List LoggedFile) (disk : List DiskFile) (t : FType) :
    List LoggedFile :=
  let known := specKnownFiles log
  let adds := disk.filterMap (fun df =>
    match pyGet? known df.path with
    | none => some ⟨FEvent.a, t, some df.mtime, df.path⟩
    | some m0 =>
      if m0 = some df.mtime then none else some ⟨FEvent.m, t, some df.mtime, df.path⟩)
  let seen := disk.map (fun df => df.path)
  let dels := known.filterMap
    (fun p => if p.1 ∈ seen then none else some ⟨FEvent.d, t, none, p.1⟩)
  adds ++ dels

/-- Every delete event carries an absent timestamp — true of every event the
system itself writes (`_apply_log_files` encodes deletes with `None`). -/
def deleteEventsUnstamped (log : List LoggedFile) : Prop :=
  ∀ lf ∈ log, lf.event = FEvent.d → lf.modified = none

/-- Whether the most recent log event for `p` is a delete. -/
def latestEventIsDelete (log : List LoggedFile) (p : String) : Bool :=
  match lastEvent log p with
  | some lf => lf.event == FEvent.d
  | none => false

/-! ## Meta initialization (`init_run_meta`, run_util.py lines 187-215) -/

/-- The meta files `init_run_meta` writes, in the order the source writes
them (directory creations and runner-log setup are not meta-file writes). -/
inductive MetaWrite
  | schemaFile
  | runIdFile
  | opdefFile
  | configFile
  | cmdArgsFile
  | cmdEnvFile
  | userAttrFile (name : String)
  | sysAttrFile (name : String)
  | oprefFile
  | initializedFile
deriving DecidableEq

/-- `init_run_meta`: validate `opref.op_name == opdef.name` (else
`ValueError`), then write the meta files in source order.  `user_attrs` and
`sys_attrs` are the attribute names in dict order; a falsy (empty) mapping
is skipped entirely. -/
def initRunMeta (oprefName opdefName : String) (userAttrs sysAttrs : List String) :
    Except String (List MetaWrite) :=
  if oprefName ≠ opdefName then
    .error ("mismatched names in opref ('" ++ oprefName ++ "') and opdef ('"
      ++ opdefName ++ "')")
  else
    .ok ([MetaWrite.schemaFile, MetaWrite.runIdFile, MetaWrite.opdefFile,
          MetaWrite.configFile, MetaWrite.cmdArgsFile, MetaWrite.cmdEnvFile]
      ++ (if userAttrs ≠ [] then userAttrs.map MetaWrite.userAttrFile else [])
      ++ (if sysAttrs ≠ [] then sysAttrs.map MetaWrite.sysAttrFile else [])
      ++ [MetaWrite.oprefFile, MetaWrite.initializedFile])

/-! ## Process executor (`_proc_args` lines 667-674, `_run_phase_exec`
lines 635-664, `stage_run` lines 316-321) -/

/-- `exec_cmd: str | list[str]`. -/
inductive ExecCmd
  | str (s : String)
  | args (l : List String)
deriving DecidableEq

/-- Python truthiness of a command value (`if exec:` gates each hook): empty
strings and empty lists are falsy. -/
def ExecCmd.truthy : ExecCmd → Bool
  | .str s => !s.data.isEmpty
  | .args l => !l.isEmpty

/-- The line-boundary characters of `str.splitlines`: LF, CR, VT, FF, FS,
GS, RS, NEL, LINE SEPARATOR and PARAGRAPH SEPARATOR (the CRLF pair counts
as a single boundary, see `normalizeCRLF`). -/
def isLineBreak (c : Char) : Bool :=
  c == '\n' || c == '\r' || c == '\x0b' || c == '\x0c' || c == '\x1c'
    || c == '\x1d' || c == '\x1e' || c == '\x85' || c == '\u2028' || c == '\u2029'

/-- Replace each `"\r\n"` pair by a single `'\n'`, so that CRLF counts as
one line boundary as in `str.splitlines`. -/
def normalizeCRLF : List Char → List Char
  | [] => []
  | [c] => [c]
  | c1 :: c2 :: rest =>
    if c1 = '\r' ∧ c2 = '\n' then '\n' :: normalizeCRLF rest
    else c1 :: normalizeCRLF (c2 :: rest)

/-- Split on line-boundary characters: the pieces between boundaries (the
possible trailing empty piece is dropped by `pySplitlines`). -/
def splitBreaks : List Char → List (List Char)
  | [] => [[]]
  | x :: xs =>
    if isLineBreak x then [] :: splitBreaks xs
    else
      match splitBreaks xs with
      | [] => [[x]]
      | h :: t => (x :: h) :: t

/-- Whether the last character is a line boundary. -/
def endsWithBreak (cs : List Char) : Bool :=
  match cs.getLast? with
  | some c => isLineBreak c
  | none => false

/-- `s.splitlines()`: after collapsing CRLF, the pieces between
line-boundary characters, with no trailing empty piece when the text ends
in a boundary, and `[]` for the empty string. -/
def pySplitlines (s : String) : List String :=
  if s.data = [] then []
  else
    let cs := normalizeCRLF s.data
    let parts := splitBreaks cs
    let parts := if endsWithBreak cs then parts.dropLast else parts
    parts.map String.mk

/-- `line1.startswith("#!")`. -/
def startsWithShebang (s : String) : Bool :=
  match s.data with
  | '#' :: '!' :: _ => true
  | _ => false

/-- `"".join(rest)`. -/
def joinStrings (l : List String) : String := String.mk ((l.map String.data).flatten)

/-- `s[n:]`. -/
def dropChars (s : String) (n : Nat) : String := String.mk (s.data.drop n)

/-- `_proc_args`: a list is passed through verbatim with `shell=False`; a
string is split into lines (`line1, *rest = exec_cmd.splitlines()` raises
`ValueError` on an empty string, embedded as `.error`); a `#!` first line
yields `[line1[2:].rstrip(), "-c", "".join(rest)]` with `shell=False`;
any other string runs with `shell=True`. -/
def procArgs (cmd : ExecCmd) : Except Unit (ExecCmd × Bool) :=
  match cmd with
  | .args l => .ok (.args l, false)
  | .str s =>
    match pySplitlines s with
    | [] => .error ()
    | line1 :: rest =>
      if startsWithShebang line1 then
        .ok (.args [pyRstrip (dropChars line1 2), "-c", joinStrings rest], false)
      else .ok (.str s, true)

/-- The resolved `proc_args` a successful `_proc_args` returns (used in the
`RunExecError` payload). -/
def resolvedArgs (cmd : ExecCmd) : ExecCmd :=
  match procArgs cmd with
  | .ok r => r.1
  | .error _ => cmd

/-- Exceptions out of `_run_phase_exec`: the unpack `ValueError` from
`_proc_args`, or `RunExecError(phase_name, proc_args, exit_code)`. -/
inductive PhaseFailure
  | valueError
  | execError (phase : String) (args : ExecCmd) (exitCode : Int)
deriving DecidableEq

/-- `_run_phase_exec` with the child process abstracted by its exit code:
resolve the command, run it, and raise `RunExecError(phase_name, proc_args,
exit_code)` when the exit code is non-zero. -/
def runPhaseExec (phase : String) (cmd : ExecCmd) (exitCode : Int) :
    Except PhaseFailure Unit :=
  match procArgs cmd with
  | .error _ => .error .valueError
  | .ok r =>
    if exitCode ≠ 0 then .error (.execError phase r.1 exitCode) else .ok ()

/-- One optional phase hook: `exec = opdef.get_exec().get_stage_*()`;
`if exec:` runs it only when truthy. -/
def runHookGate (phase : String) (hook : Option (ExecCmd × Int)) :
    Except PhaseFailure Unit :=
  match hook with
  | none => .ok ()
  | some (cmd, exitCode) =>
    if cmd.truthy then runPhaseExec phase cmd exitCode else .ok ()

/-- The hooks an operation definition supplies to `stage_run`, each paired
with the exit code its child process would produce. -/
structure StageEnv where
  scHook : Option (ExecCmd × Int)
  rtHook : Option (ExecCmd × Int)
  depHook : Option (ExecCmd × Int)

/-- A hook slot that does not abort the pipeline: absent, falsy, or exiting
with code 0. -/
def hookPasses : Option (ExecCmd × Int) → Prop
  | none => True
  | some (cmd, exitCode) => cmd.truthy = false ∨ exitCode = 0

/-- `stage_run`: `stage_sourcecode`, `apply_config`, `stage_runtime`,
`stage_dependencies`, `finalize_staged_run`, in order; an uncaught exception
from a phase propagates, so no later phase runs.  Returns the phases entered
(in order) and the propagated failure, if any.  `apply_config` and
`finalize_staged_run` run no hook. -/
def stageRun (env : StageEnv) : List String × Option PhaseFailure :=
  match runHookGate "stage-sourcecode" env.scHook with
  | .error e => (["stage-sourcecode"], some e)
  | .ok _ =>
    match runHookGate "stage-runtime" env.rtHook with
    | .error e => (["stage-sourcecode", "apply-config", "stage-runtime"], some e)
    | .ok _ =>
      match runHookGate "stage-dependencies" env.depHook with
      | .error e =>
        (["stage-sourcecode", "apply-config", "stage-runtime",
          "stage-dependencies"], some e)
      | .ok _ =>
        (["stage-sourcecode", "apply-config", "stage-runtime",
          "stage-dependencies", "finalize"], none)

/-! ## Run directory scanner (`_iter_runs`, `list_runs`, var.py lines 21-64) -/

/-- What `_iter_runs` observes about one directory entry's `opref` file:
missing, raising `OSError`/`ValueError` on read/decode, or decoding to an
operation reference (opaque here, kept as its encoded string). -/
inductive OprefState
  | missing
  | badDecode
  | decoded (opref : String)
deriving DecidableEq

/-- One entry of `os.listdir(root)` together with its opref state. -/
structure DirEntryM where
  name : String
  opref : OprefState
deriving DecidableEq

/-- The `Run` record `_iter_runs` yields:
`Run(run_id, opref, meta_dir, run_dir, run_name)` (types.py is outside
`src/`; the field list follows the var.py call site and §4.8 of the spec). -/
structure RunRec where
  id : String
  opref : String
  metaDir : String
  runDir : String
  name : String
deriving DecidableEq

/-- `name.endswith(".meta")`. -/
def endsWithMeta (s : String) : Bool :=
  decide (s.data.length ≥ 5
    ∧ s.data.drop (s.data.length - 5) = ['.', 'm', 'e', 't', 'a'])

/-- `os.path.join(root, name)` for a simple relative name. -/
def pathJoin (a b : String) : String := a ++ "/" ++ b

/-- `meta_dir[:-5]`. -/
def dropRight5 (s : String) : String := String.mk (s.data.take (s.data.length - 5))

/-- The record built for a valid candidate: `run_id = name`,
`run_dir = meta_dir[:-5]`, `run_name = run_name_for_id(run_id)` (the
proquint encoder is external, abstracted as `runName`). -/
def mkRunRec (runName : String → String) (root : String) (name opref : String) :
    RunRec :=
  { id := name, opref := opref, metaDir := pathJoin root name,
    runDir := dropRight5 (pathJoin root name), name := runName name }

/-- One iteration of `_iter_runs`'s loop: skip names not ending in `.meta`
(`continue`), skip a missing opref file (`continue`), skip a decode failure
(`pass`), else yield the `Run` record. -/
def iterRunsEntry (runName : String → String) (root : String) (e : DirEntryM) :
    Option RunRec :=
  if endsWithMeta e.name = false then none
  else
    match e.opref with
    | .missing => none
    | .badDecode => none
    | .decoded o => some (mkRunRec runName root e.name o)

/-- `_iter_runs`: keep entries named `*.meta` whose opref file exists and
decodes; a decode failure (`OSError`/`ValueError`) is silently skipped. -/
def iterRuns (runName : String → String) (root : String) (entries : List DirEntryM) :
    List RunRec :=
  entries.filterMap (iterRunsEntry runName root)

/-- `list_runs` without a sort key: apply the filter (default: keep all) to
`_iter_runs`; the `sort` branch returns `runs` unchanged in the source. -/
def listRuns (runName : String → String) (root : String) (entries : List DirEntryM)
    (filt : Option (RunRec → Bool)) : List RunRec :=
  let f := filt.getD (fun _ => true)
  (iterRuns runName root entries).filter f

/-- The first line of a string, as characters: everything before the first
line-boundary character (spec-side reformulation for the shebang rule). -/
def firstLineChars (s : String) : List Char :=
  s.data.takeWhile (fun c => !isLineBreak c)

/-- Everything after the first line terminator, a CRLF pair counting as one
terminator (spec-side reformulation). -/
def afterFirstLineChars (s : String) : List Char :=
  match s.data.dropWhile (fun c => !isLineBreak c) with
  | [] => []
  | [_] => []
  | c1 :: c2 :: rest => if c1 = '\r' ∧ c2 = '\n' then rest else c2 :: rest

theorem runTimestampStep_gt_last (c l : Int) :
    l < (runTimestampStep c (some l)).1 := by
  simp only [runTimestampStep]
  split <;> omega

theorem runTimestampSeq_lower_bound (clocks : List Int) (l : Int) :
    ∀ x ∈ runTimestampSeq clocks (some l), l < x := by
  induction clocks generalizing l with
  | nil => simp [runTimestampSeq]
  | cons c cs ih =>
    intro x hx
    simp only [runTimestampSeq, List.mem_cons] at hx
    rcases hx with h | h
    · subst h; exact runTimestampStep_gt_last c l
    · have h1 := runTimestampStep_gt_last c l
      have h2 := ih (runTimestampStep c (some l)).1 x
      simp only [runTimestampStep] at h2 ⊢
      exact lt_trans h1 (h2 h)

theorem runTimestampSeq_chain (clocks : List Int) (last : Option Int) :
    List.Chain' (· < ·) (runTimestampSeq clocks last) := by
  induction clocks generalizing last with
  | nil => simp [runTimestampSeq]
  | cons c cs ih =>
    cases cs with
    | nil => simp [runTimestampSeq]
    | cons c2 cs2 =>
      refine List.chain'_cons.mpr ⟨?_, ih _⟩
      simp only [runTimestampSeq, runTimestampStep]
      split <;> omega

/-- Claim C1: within one process, successive `run_timestamp()` results are
strictly increasing for every sequence of wall-clock readings; when the fresh
reading is not strictly greater than the last issued value the call returns
`last + 1` and stores it as the new last value. -/
theorem run_timestamp_strictly_increasing (clocks : List Int) :
    List.Chain' (· < ·) (runTimestampSeq clocks none)
    ∧ ∀ c l : Int, c ≤ l →
        runTimestampStep c (some l) = (l + 1, some (l + 1)) := by
  refine ⟨runTimestampSeq_chain clocks none, ?_⟩
  intro c l h
  simp only [runTimestampStep, if_pos (le_of_lt (Int.lt_add_one_of_le h))]
  simp [show l ≥ c from h]

theorem run_timestamp_strictly_increasing_witness :
    List.Chain' (· < ·) (runTimestampSeq [10, 10, 4, 20] none)
    ∧ runTimestampStep 3 (some 5) = (6, some 6) :=
  ⟨(run_timestamp_strictly_increasing [10, 10, 4, 20]).1,
    (run_timestamp_strictly_increasing []).2 3 5 (by decide)⟩

/-! ### Decimal printing/parsing round trip -/

theorem digitChar_isDigit {d : Nat} (h : d < 10) : (digitChar d).isDigit = true := by
  interval_cases d <;> decide

theorem digitChar_toNat {d : Nat} (h : d < 10) : (digitChar d).toNat = 48 + d := by
  interval_cases d <;> decide

theorem isDigit_ne_special {c : Char} (h : c.isDigit = true) :
    c ≠ ' ' ∧ c ≠ '-' ∧ c ≠ '+' := by
  refine ⟨?_, ?_, ?_⟩ <;> rintro rfl <;> simp [Char.isDigit] at h

theorem natDigitsRev_all_digits (fuel : Nat) :
    ∀ n, ∀ c ∈ natDigitsRev fuel n, c.isDigit = true := by
  induction fuel with
  | zero => simp [natDigitsRev]
  | succ f ih =>
    intro n c hc
    simp only [natDigitsRev] at hc
    split at hc
    · simp at hc
    · rcases List.mem_cons.mp hc with h | h
      · exact h ▸ digitChar_isDigit (Nat.mod_lt _ (by norm_num))
      · exact ih _ c h

theorem natDigitsRev_ne_nil {n : Nat} (h : n ≠ 0) :
    natDigitsRev n n ≠ [] := by
  match n, h with
  | f + 1, _ => simp [natDigitsRev, h]

theorem natDigitsRev_foldl (fuel : Nat) :
    ∀ n a, n ≤ fuel →
      (natDigitsRev fuel n).reverse.foldl (fun acc c => 10 * acc + (c.toNat - 48)) a
        = a * 10 ^ (natDigitsRev fuel n).length + n := by
  induction fuel with
  | zero =>
    intro n a hn
    have : n = 0 := Nat.le_zero.mp hn
    subst this
    simp [natDigitsRev]
  | succ f ih =>
    intro n a hn
    by_cases h0 : n = 0
    · subst h0; simp [natDigitsRev]
    · have hlt : n / 10 ≤ f := by
        have := Nat.div_lt_self (Nat.pos_of_ne_zero h0) (by norm_num : 1 < 10)
        omega
      simp only [natDigitsRev, if_neg h0, List.reverse_cons, List.foldl_append,
        List.foldl_cons, List.foldl_nil, List.length_cons]
      rw [ih (n / 10) a hlt, digitChar_toNat (Nat.mod_lt _ (by norm_num))]
      have hpow : 10 ^ (f + 1 - f + (natDigitsRev f (n / 10)).length)
          = 10 ^ (natDigitsRev f (n / 10)).length * 10 := by
        rw [show f + 1 - f = 1 by omega, Nat.add_comm 1, Nat.pow_succ]
      have hdm : 10 * (n / 10) + n % 10 = n := by omega
      generalize (natDigitsRev f (n / 10)).length = L
      have : 48 + n % 10 - 48 = n % 10 := by omega
      rw [this]
      ring_nf
      generalize a * 10 ^ L = Q
      omega

theorem parseDigits_pyStrNat (n : Nat) : parseDigits (pyStrNat n).data = some n := by
  by_cases h : n = 0
  · subst h; decide
  · simp only [pyStrNat, if_neg h]
    have hne : (natDigitsRev n n).reverse ≠ [] := by
      simp [natDigitsRev_ne_nil h]
    have hall : (natDigitsRev n n).reverse.all Char.isDigit = true := by
      rw [List.all_eq_true]
      intro c hc
      exact natDigitsRev_all_digits n n c (List.mem_reverse.mp hc)
    show parseDigits (natDigitsRev n n).reverse = some n
    rw [parseDigits, if_pos ⟨hne, hall⟩, digitsVal,
      natDigitsRev_foldl n n 0 (le_refl n)]
    simp

theorem pyStrNat_data_all_digits (n : Nat) :
    ∀ c ∈ (pyStrNat n).data, c.isDigit = true := by
  by_cases h : n = 0
  · subst h; decide
  · simp only [pyStrNat, if_neg h]
    intro c hc
    exact natDigitsRev_all_digits n n c (List.mem_reverse.mp hc)

theorem pyStrNat_data_ne_nil (n : Nat) : (pyStrNat n).data ≠ [] := by
  by_cases h : n = 0
  · subst h; decide
  · simp only [pyStrNat, if_neg h]
    simp [natDigitsRev_ne_nil h]

theorem mk_data (s : String) : String.mk s.data = s := rfl

theorem pyParseInt_pyStrNat (n : Nat) : pyParseInt (pyStrNat n) = some (Int.ofNat n) := by
  have hd := parseDigits_pyStrNat n
  have hall := pyStrNat_data_all_digits n
  have hne := pyStrNat_data_ne_nil n
  rcases hcs : (pyStrNat n).data with _ | ⟨c, cs⟩
  · exact absurd hcs hne
  · have hc : c.isDigit = true := hall c (hcs ▸ List.mem_cons_self c cs)
    obtain ⟨-, h1, h2⟩ := isDigit_ne_special hc
    simp only [pyParseInt, hcs]
    rw [if_neg h1, if_neg h2, ← hcs, hd]
    rfl

theorem pyParseInt_pyStrInt (m : Int) : pyParseInt (pyStrInt m) = some m := by
  by_cases hm : m < 0
  · have hdata : ("-" ++ pyStrNat m.natAbs).data = '-' :: (pyStrNat m.natAbs).data := by
      rw [String.data_append]; rfl
    have hmain : pyParseInt ("-" ++ pyStrNat m.natAbs)
        = (parseDigits (pyStrNat m.natAbs).data).map (fun n => -(Int.ofNat n)) := by
      simp only [pyParseInt, hdata, if_true]
    simp only [pyStrInt, if_pos hm, hmain, parseDigits_pyStrNat]
    show some (-(Int.ofNat m.natAbs)) = some m
    congr 1
    have h0 : Int.ofNat m.natAbs = (m.natAbs : Int) := rfl
    rw [h0]
    omega
  · simp only [pyStrInt, if_neg hm, pyParseInt_pyStrNat]
    congr 1
    have h0 : Int.ofNat m.natAbs = (m.natAbs : Int) := rfl
    rw [h0]
    omega

/-! ### Log line round trip -/

theorem splitOnceChar_append (a b : List Char) (h : ' ' ∉ a) :
    splitOnceChar ' ' (a ++ ' ' :: b) = some (a, b) := by
  induction a with
  | nil => simp [splitOnceChar]
  | cons x xs ih =>
    have hx : x ≠ ' ' := fun hc => h (hc ▸ List.mem_cons_self x xs)
    have hih := ih (fun hmem => h (List.mem_cons_of_mem x hmem))
    simp only [List.cons_append, splitOnceChar, if_neg hx, List.append_eq, hih]
    rfl

theorem pySplitMax_fields (e t m p : List Char)
    (he : ' ' ∉ e) (ht : ' ' ∉ t) (hm : ' ' ∉ m) :
    pySplitMax ' ' 3 (e ++ ' ' :: (t ++ ' ' :: (m ++ ' ' :: p))) = [e, t, m, p] := by
  simp [pySplitMax, splitOnceChar_append _ _ he, splitOnceChar_append _ _ ht,
    splitOnceChar_append _ _ hm]

theorem eventStr_no_space (ev : FEvent) : ' ' ∉ (eventStr ev).data := by
  cases ev <;> decide

theorem typeStr_no_space (ty : FType) : ' ' ∉ (typeStr ty).data := by
  cases ty <;> decide

theorem pyStrInt_no_space (m : Int) : ' ' ∉ (pyStrInt m).data := by
  by_cases _hm : m < 0
  · simp only [pyStrInt, if_pos _hm, String.data_append]
    intro hmem
    rcases List.mem_append.mp hmem with h | h
    · exact absurd h (by decide)
    · exact absurd (isDigit_ne_special (pyStrNat_data_all_digits _ _ h)).1 (by simp)
  · simp only [pyStrInt, if_neg _hm]
    intro hmem
    exact absurd (isDigit_ne_special (pyStrNat_data_all_digits _ _ hmem)).1 (by simp)

theorem encodeModified_no_space (mo : Option Int) : ' ' ∉ (encodeModified mo).data := by
  match mo with
  | none => decide
  | some m =>
    simp only [encodeModified]
    split
    · decide
    · exact pyStrInt_no_space m

theorem encodeLoggedFile_data (f : LoggedFile) :
    (encodeLoggedFile f).data
      = (eventStr f.event).data ++ ' ' :: ((typeStr f.type).data
          ++ ' ' :: ((encodeModified f.modified).data ++ ' ' :: (f.path.data ++ ['\n']))) := by
  simp only [encodeLoggedFile, String.data_append, List.append_assoc]
  rfl

theorem decodeEventCode_eventStr (ev : FEvent) :
    decodeEventCode (eventStr ev).data = .ok ev := by
  cases ev <;> rfl

theorem decodeTypeCode_typeStr (ty : FType) :
    decodeTypeCode (typeStr ty).data = .ok ty := by
  cases ty <;> rfl

theorem pyStrInt_data_ne_dash {m : Int} (_hm : m ≠ 0) : (pyStrInt m).data ≠ ['-'] := by
  by_cases hneg : m < 0
  · simp only [pyStrInt, if_pos hneg, String.data_append]
    intro hc
    have : (pyStrNat m.natAbs).data = [] := by
      have := congrArg List.length hc
      simp at this
      exact List.eq_nil_of_length_eq_zero this
    exact pyStrNat_data_ne_nil _ this
  · simp only [pyStrInt, if_neg hneg]
    intro hc
    have hmem : '-' ∈ (pyStrNat m.natAbs).data := by rw [hc]; exact List.mem_cons_self _ _
    have := pyStrNat_data_all_digits _ _ hmem
    exact absurd this (by decide)

theorem decodeModified_encodeModified_ne_zero (mo : Option Int)
    (h : mo = none ∨ ∃ m, mo = some m ∧ m ≠ 0) :
    decodeModified (encodeModified mo).data = .ok mo := by
  rcases h with rfl | ⟨m, rfl, hm⟩
  · rfl
  · simp only [encodeModified, if_neg hm, decodeModified,
      if_neg (pyStrInt_data_ne_dash hm), mk_data, pyParseInt_pyStrInt]

theorem decode_encode_core (e : FEvent) (t : FType) (mo mo' : Option Int) (pa : String)
    (hmo : decodeModified (encodeModified mo).data = .ok mo') :
    decodeFilesLogLine (String.mk (encodeLoggedFile ⟨e, t, mo, pa⟩).data.dropLast)
      = .ok ⟨e, t, mo', pa⟩ := by
  have hshape : (encodeLoggedFile ⟨e, t, mo, pa⟩).data
      = ((eventStr e).data ++ ' ' :: ((typeStr t).data
          ++ ' ' :: ((encodeModified mo).data ++ ' ' :: pa.data))) ++ ['\n'] := by
    rw [encodeLoggedFile_data]
    simp
  have hdata : (encodeLoggedFile ⟨e, t, mo, pa⟩).data.dropLast
      = (eventStr e).data ++ ' ' :: ((typeStr t).data
          ++ ' ' :: ((encodeModified mo).data ++ ' ' :: pa.data)) := by
    rw [hshape, List.dropLast_concat]
  rw [decodeFilesLogLine]
  show (match pySplitMax ' ' 3 (String.mk _).data with
    | [ev, ty, mo, pa] => _
    | _ => Except.error ()) = _
  rw [show (String.mk ((encodeLoggedFile ⟨e, t, mo, pa⟩).data.dropLast)).data
      = (encodeLoggedFile ⟨e, t, mo, pa⟩).data.dropLast from rfl, hdata,
    pySplitMax_fields _ _ _ _ (eventStr_no_space e) (typeStr_no_space t)
      (encodeModified_no_space mo)]
  simp only [hmo, decodeEventCode_eventStr, decodeTypeCode_typeStr, mk_data]

/-- Claim C9: decoding is a left inverse of encoding for every logged file
event whose `modified` timestamp is absent or a nonzero integer (the encoded
line taken without its terminating newline); an event whose `modified` is
exactly `0` is encoded as `"-"` (Python truthiness of `modified or '-'`) and
decodes with an absent timestamp rather than `0`. -/
theorem files_log_encode_decode_roundtrip (lf : LoggedFile)
    (h : lf.modified = none ∨ ∃ m, lf.modified = some m ∧ m ≠ 0) :
    decodeFilesLogLine (String.mk (encodeLoggedFile lf).data.dropLast) = .ok lf
    ∧ ∀ (e : FEvent) (t : FType) (p : String),
        decodeFilesLogLine (String.mk (encodeLoggedFile ⟨e, t, some 0, p⟩).data.dropLast)
          = .ok ⟨e, t, none, p⟩ := by
  constructor
  · obtain ⟨ev, ty, mo, pa⟩ := lf
    exact decode_encode_core ev ty mo mo pa
      (decodeModified_encodeModified_ne_zero mo h)
  · intro e t p
    exact decode_encode_core e t (some 0) none p rfl

theorem files_log_encode_decode_roundtrip_witness :
    decodeFilesLogLine
        (String.mk (encodeLoggedFile ⟨.m, .r, some 1700000000000017, "sub/my file.txt"⟩).data.dropLast)
      = .ok ⟨.m, .r, some 1700000000000017, "sub/my file.txt"⟩
    ∧ decodeFilesLogLine (String.mk (encodeLoggedFile ⟨.a, .s, some 0, "p"⟩).data.dropLast)
      = .ok ⟨.a, .s, none, "p"⟩ :=
  ⟨(files_log_encode_decode_roundtrip ⟨.m, .r, some 1700000000000017, "sub/my file.txt"⟩
      (Or.inr ⟨1700000000000017, rfl, by decide⟩)).1,
    (files_log_encode_decode_roundtrip ⟨.d, .d, none, "x"⟩ (Or.inl rfl)).2 .a .s "p"⟩

/-! ### Dict lemmas -/

theorem pyGet?_nil {β : Type} (k : String) : pyGet? ([] : List (String × β)) k = none := rfl

theorem pyGet?_cons {β : Type} (a : String × β) (m : List (String × β)) (k : String) :
    pyGet? (a :: m) k = if a.1 = k then some a.2 else pyGet? m k := by
  by_cases h : a.1 = k
  · simp [pyGet?, List.find?_cons_of_pos, h]
  · have hb : (a.1 == k) = false := by simp [h]
    simp [pyGet?, List.find?_cons_of_neg, hb, h]

theorem pyGet?_mapUpdate {β : Type} (m : List (String × β)) (k k' : String) (v : β)
    (hne : k' ≠ k) :
    pyGet? (m.map (fun p => if p.1 == k then (k, v) else p)) k' = pyGet? m k' := by
  induction m with
  | nil => rfl
  | cons a m ih =>
    rw [List.map_cons, pyGet?_cons, pyGet?_cons, ih]
    by_cases ha : a.1 = k
    · have h1 : (if (a.1 == k) = true then (k, v) else a) = (k, v) := by
        rw [ha]; simp
      rw [h1]
      rw [if_neg (fun h : (k, v).1 = k' => hne (h.symm : k' = k))]
      rw [if_neg (fun h : a.1 = k' => hne (by rw [← ha]; exact h.symm))]
    · have h1 : (if (a.1 == k) = true then (k, v) else a) = a := by simp [ha]
      rw [h1]

theorem pyGet?_mapUpdate_self {β : Type} (m : List (String × β)) (k : String) (v : β)
    (hhas : pyHas m k = true) :
    pyGet? (m.map (fun p => if p.1 == k then (k, v) else p)) k = some v := by
  induction m with
  | nil => simp [pyHas] at hhas
  | cons a m ih =>
    rw [List.map_cons, pyGet?_cons]
    by_cases ha : a.1 = k
    · have h1 : (if (a.1 == k) = true then (k, v) else a) = (k, v) := by simp [ha]
      rw [h1, if_pos rfl]
    · have h1 : (if (a.1 == k) = true then (k, v) else a) = a := by simp [ha]
      have hhas' : pyHas m k = true := by
        simp only [pyHas, List.any_cons] at hhas
        rcases Bool.or_eq_true_iff.mp hhas with h | h
        · exact absurd (by simpa using h) ha
        · exact h
      rw [h1, if_neg ha, ih hhas']

theorem pyGet?_append_single {β : Type} (m : List (String × β)) (k k' : String) (v : β)
    (hhas : pyHas m k = false) :
    pyGet? (m ++ [(k, v)]) k' = if k' = k then some v else pyGet? m k' := by
  induction m with
  | nil =>
    rw [List.nil_append, pyGet?_cons]
    by_cases h : k' = k
    · rw [if_pos (h.symm : (k, v).1 = k'), if_pos h]
    · rw [if_neg (fun hc : (k, v).1 = k' => h (hc.symm : k' = k)), if_neg h, pyGet?_nil]
  | cons a m ih =>
    have hane : a.1 ≠ k := by
      simp only [pyHas, List.any_cons, Bool.or_eq_false_iff] at hhas
      simpa using hhas.1
    have hhas' : pyHas m k = false := by
      simp only [pyHas, List.any_cons, Bool.or_eq_false_iff] at hhas
      exact hhas.2
    rw [List.cons_append, pyGet?_cons, pyGet?_cons, ih hhas']
    by_cases hk : k' = k
    · subst hk
      rw [if_neg (fun h : a.1 = k' => hane h), if_pos rfl, if_pos rfl]
    · rw [if_neg hk, if_neg hk]

theorem pyGet?_pySet {β : Type} (m : List (String × β)) (k k' : String) (v : β) :
    pyGet? (pySet m k v) k' = if k' = k then some v else pyGet? m k' := by
  unfold pySet
  by_cases hhas : pyHas m k
  · rw [if_pos hhas]
    by_cases hk : k' = k
    · subst hk
      rw [pyGet?_mapUpdate_self m k' v hhas, if_pos rfl]
    · rw [pyGet?_mapUpdate m k k' v hk, if_neg hk]
  · rw [if_neg hhas]
    exact pyGet?_append_single m k k' v (by simpa using hhas)

theorem pyGet?_pyPop {β : Type} (m : List (String × β)) (k k' : String) :
    pyGet? (pyPop m k) k' = if k' = k then none else pyGet? m k' := by
  induction m with
  | nil =>
    simp only [pyPop, List.filter_nil, pyGet?_nil]
    split <;> rfl
  | cons a m ih =>
    by_cases ha : a.1 = k
    · have hb : (a.1 != k) = false := by simp [ha]
      simp only [pyPop, List.filter_cons, hb]
      show pyGet? (pyPop m k) k' = _
      rw [ih, pyGet?_cons]
      by_cases hk : k' = k
      · simp [hk]
      · rw [if_neg hk, if_neg hk, if_neg (fun h : a.1 = k' => hk (ha ▸ h).symm)]
    · have hb : (a.1 != k) = true := by simp [ha]
      simp only [pyPop, List.filter_cons, hb]
      show pyGet? (a :: pyPop m k) k' = _
      rw [pyGet?_cons, ih, pyGet?_cons]
      by_cases hak : a.1 = k'
      · rw [if_pos hak, if_neg (fun h : k' = k => ha (hak.trans h)), if_pos hak]
      · rw [if_neg hak, if_neg hak]

theorem keysNodup_nil {β : Type} : KeysNodup ([] : List (String × β)) := by
  simp [KeysNodup]

theorem pyHas_eq_false_iff {β : Type} (m : List (String × β)) (k : String) :
    pyHas m k = false ↔ ∀ p ∈ m, p.1 ≠ k := by
  simp [pyHas]

theorem keysNodup_pySet {β : Type} (m : List (String × β)) (k : String) (v : β)
    (h : KeysNodup m) : KeysNodup (pySet m k v) := by
  unfold pySet
  by_cases hhas : pyHas m k
  · rw [if_pos hhas]
    have hkeys : (m.map (fun p => if p.1 == k then (k, v) else p)).map (fun p => p.1)
        = m.map (fun p => p.1) := by
      rw [List.map_map]
      refine List.map_congr_left ?_
      intro p _
      by_cases hp : p.1 = k
      · simp [hp]
      · simp [hp]
    unfold KeysNodup
    rw [hkeys]
    exact h
  · rw [if_neg hhas]
    have hnk : ∀ p ∈ m, p.1 ≠ k := (pyHas_eq_false_iff m k).mp (by simpa using hhas)
    unfold KeysNodup
    rw [List.map_append]
    simp only [List.map_cons, List.map_nil]
    rw [List.nodup_append]
    refine ⟨h, List.nodup_singleton _, ?_⟩
    intro x hx hx1
    simp only [List.mem_singleton] at hx1
    obtain ⟨p, hp, rfl⟩ := List.mem_map.mp hx
    exact hnk p hp hx1

theorem keysNodup_pyPop {β : Type} (m : List (String × β)) (k : String)
    (h : KeysNodup m) : KeysNodup (pyPop m k) := by
  unfold KeysNodup at h ⊢
  exact ((List.filter_sublist m).map (fun p => p.1)).nodup h

theorem pyGet?_eq_some_iff_mem {β : Type} (m : List (String × β)) (h : KeysNodup m)
    (k : String) (v : β) : pyGet? m k = some v ↔ (k, v) ∈ m := by
  induction m with
  | nil => simp [pyGet?_nil]
  | cons a m ih =>
    obtain ⟨a1, a2⟩ := a
    have hnd : KeysNodup m := (List.nodup_cons.mp h).2
    have hnotin : a1 ∉ m.map (fun p => p.1) := (List.nodup_cons.mp h).1
    rw [pyGet?_cons]
    by_cases hk : a1 = k
    · subst hk
      rw [if_pos rfl]
      constructor
      · intro hv
        have hv2 : a2 = v := Option.some_inj.mp hv
        subst hv2
        exact List.mem_cons_self _ _
      · intro hv
        rcases List.mem_cons.mp hv with heq | hmem
        · rw [Prod.ext_iff] at heq
          have h2 : v = a2 := by simpa using heq.2
          rw [h2]
        · exact absurd (List.mem_map.mpr ⟨(a1, v), hmem, rfl⟩) hnotin
    · rw [if_neg hk, ih hnd]
      constructor
      · exact fun hv => List.mem_cons_of_mem _ hv
      · intro hv
        rcases List.mem_cons.mp hv with heq | hmem
        · exact absurd (congrArg Prod.fst heq).symm hk
        · exact hmem

theorem pyGet?_isSome_iff_has {β : Type} (m : List (String × β)) (k : String) :
    (∃ v, pyGet? m k = some v) ↔ ∃ p ∈ m, p.1 = k := by
  unfold pyGet?
  constructor
  · rintro ⟨v, hv⟩
    obtain ⟨p, hfind, -⟩ := Option.map_eq_some'.mp hv
    exact ⟨p, List.mem_of_find?_eq_some hfind, by simpa using List.find?_some hfind⟩
  · rintro ⟨p, hp, hk⟩
    have hsome : (m.find? (fun p => p.1 == k)).isSome := by
      rw [List.find?_isSome]
      exact ⟨p, hp, by simpa using hk⟩
    obtain ⟨q, hq⟩ := Option.isSome_iff_exists.mp hsome
    exact ⟨q.2, by rw [hq]; rfl⟩

/-! ### Lookup in the folded indexes -/

theorem foldl_pySet_lookup (log : List LoggedFile) :
    ∀ (m : List (String × Option Int)) (p : String),
      pyGet? (log.foldl (fun m lf => pySet m lf.path lf.modified) m) p
        = match log.reverse.find? (fun lf => lf.path == p) with
          | some lf => some lf.modified
          | none => pyGet? m p := by
  induction log with
  | nil => intro m p; rfl
  | cons lf rest ih =>
    intro m p
    simp only [List.foldl_cons, List.reverse_cons, List.find?_append]
    rw [ih]
    rcases hfind : rest.reverse.find? (fun lf => lf.path == p) with - | lf'
    · simp only [hfind, Option.none_or]
      by_cases hp : lf.path = p
      · rw [List.find?_cons_of_pos _ (by simpa using hp), pyGet?_pySet,
          if_pos hp.symm]
      · rw [List.find?_cons_of_neg _ (by simpa using hp), pyGet?_pySet,
          if_neg (fun h => hp h.symm)]
        rfl
    · simp [hfind]

theorem initPreFilesIndex_lookup (log : List LoggedFile) (p : String) :
    pyGet? (initPreFilesIndex log) p
      = match lastEvent log p with
        | some lf => some lf.modified
        | none => none := by
  unfold initPreFilesIndex lastEvent
  rw [foldl_pySet_lookup]
  rfl

theorem foldl_reduceStep_lookup (log : List LoggedFile) :
    ∀ (m : List (String × FType)) (p : String),
      pyGet? (log.foldl reduceStep m) p
        = match log.reverse.find? (fun lf => lf.path == p && !(lf.event == FEvent.m)) with
          | some lf => if lf.event = FEvent.a then some lf.type else none
          | none => pyGet? m p := by
  induction log with
  | nil => intro m p; rfl
  | cons lf rest ih =>
    intro m p
    simp only [List.foldl_cons, List.reverse_cons, List.find?_append]
    rw [ih]
    rcases hfind : rest.reverse.find?
        (fun lf => lf.path == p && !(lf.event == FEvent.m)) with - | lf'
    · simp only [hfind, Option.none_or]
      by_cases hp : lf.path = p
      · cases hev : lf.event with
        | a =>
          rw [List.find?_cons_of_pos _ (by simp [hp, hev])]
          simp only [reduceStep, hev]
          rw [pyGet?_pySet, if_pos hp.symm]
          simp
        | d =>
          rw [List.find?_cons_of_pos _ (by simp [hp, hev])]
          simp only [reduceStep, hev]
          rw [pyGet?_pyPop, if_pos hp.symm]
          simp
        | m =>
          rw [List.find?_cons_of_neg _ (by simp [hev])]
          simp only [reduceStep, hev]
          rfl
      · cases hev : lf.event with
        | a =>
          rw [List.find?_cons_of_neg _ (by simp [hp])]
          simp only [reduceStep, hev]
          rw [pyGet?_pySet, if_neg (fun h => hp h.symm)]
          rfl
        | d =>
          rw [List.find?_cons_of_neg _ (by simp [hp])]
          simp only [reduceStep, hev]
          rw [pyGet?_pyPop, if_neg (fun h => hp h.symm)]
          rfl
        | m =>
          rw [List.find?_cons_of_neg _ (by simp [hev])]
          simp only [reduceStep, hev]
          rfl
    · simp [hfind]

theorem keysNodup_initPreFilesIndex (log : List LoggedFile) :
    KeysNodup (initPreFilesIndex log) := by
  unfold initPreFilesIndex
  generalize hstart : ([] : List (String × Option Int)) = m
  have hm : KeysNodup m := hstart ▸ keysNodup_nil
  clear hstart
  induction log generalizing m with
  | nil => exact hm
  | cons lf rest ih => exact ih _ (keysNodup_pySet _ _ _ hm)

theorem keysNodup_reduceFold (log : List LoggedFile) :
    KeysNodup (log.foldl reduceStep []) := by
  generalize hstart : ([] : List (String × FType)) = m
  have hm : KeysNodup m := hstart ▸ keysNodup_nil
  clear hstart
  induction log generalizing m with
  | nil => exact hm
  | cons lf rest ih =>
    refine ih _ ?_
    unfold reduceStep
    cases lf.event
    · exact keysNodup_pySet _ _ _ hm
    · exact keysNodup_pyPop _ _ hm
    · exact hm

/-! ### Claim C2: manifest finalization -/

theorem finalize_foldl (sha256 : List Nat → String) (contents : String → List Nat) :
    ∀ (l : List (FType × String)) (acc : FinalizeResult),
      l.foldl (fun acc tp =>
          { readonlyPaths := acc.readonlyPaths ++ [tp.2],
            manifest := acc.manifest ++ [(tp.1, sha256 (contents tp.2), tp.2)] }) acc
        = { readonlyPaths := acc.readonlyPaths ++ l.map (fun tp => tp.2),
            manifest := acc.manifest
              ++ l.map (fun tp => (tp.1, sha256 (contents tp.2), tp.2)) } := by
  intro l
  induction l with
  | nil => intro acc; simp
  | cons x xs ih =>
    intro acc
    rw [List.foldl_cons, ih]
    simp

theorem reduceFilesLog_mem_iff (log : List LoggedFile) (t : FType) (p : String) :
    (t, p) ∈ reduceFilesLog log
      ↔ match lastAD log p with
        | some lf => lf.event = FEvent.a ∧ lf.type = t
        | none => False := by
  have h1 : (t, p) ∈ reduceFilesLog log ↔ (p, t) ∈ log.foldl reduceStep [] := by
    unfold reduceFilesLog
    rw [List.mem_map]
    constructor
    · rintro ⟨⟨x1, x2⟩, hx, hfx⟩
      simp only [Prod.mk.injEq] at hfx
      obtain ⟨rfl, rfl⟩ := hfx
      exact hx
    · intro h
      exact ⟨(p, t), h, rfl⟩
  rw [h1, ← pyGet?_eq_some_iff_mem _ (keysNodup_reduceFold log) p t,
    foldl_reduceStep_lookup]
  unfold lastAD
  rcases hlast : log.reverse.find? (fun lf => lf.path == p && !(lf.event == FEvent.m))
      with - | lf
  · simp [hlast, pyGet?_nil]
  · simp only [hlast]
    by_cases hev : lf.event = FEvent.a
    · rw [hev, if_pos rfl]
      constructor
      · intro hs
        exact ⟨rfl, Option.some_inj.mp hs⟩
      · rintro ⟨-, ht⟩
        rw [ht]
    · simp only [if_neg hev]
      constructor
      · intro hs; cases hs
      · rintro ⟨ha, -⟩; exact absurd ha hev

/-- Claim C2 counterexample: the log `[add s p, modify r p]` — the claim says
the surviving path `p` retains the type tag of its most recent event (the
`r`-tagged modify), but `_reduce_files_log` ignores modify events and keeps
the tag of the last add (`s`). -/
theorem reduce_files_log_modify_tag_counterexample :
    specFoldFilesLog [⟨FEvent.a, FType.s, some 5, "p"⟩, ⟨FEvent.m, FType.r, some 6, "p"⟩]
        = [(FType.r, "p")]
    ∧ reduceFilesLog [⟨FEvent.a, FType.s, some 5, "p"⟩, ⟨FEvent.m, FType.r, some 6, "p"⟩]
        = [(FType.s, "p")]
    ∧ ([(FType.r, "p")] : List (FType × String)) ≠ [(FType.s, "p")] :=
  ⟨rfl, rfl, by decide⟩

/-- Claim C2 (amended): finalizing a staged run folds the file-change log so
that an add event sets the path's tag, a delete event removes the path, and a
modify event is ignored (the tag of the most recent add-or-delete event
decides survival and tag, regardless of which phase added the file); one
manifest entry `(type, digest, path)` is appended per surviving path in fold
order, after marking the file read-only, with the digest computed over the
full file bytes. -/
theorem finalize_staged_files_amended (sha256 : List Nat → String)
    (contents : String → List Nat) (log : List LoggedFile) :
    ((finalizeStagedFiles sha256 contents log).manifest
        = (reduceFilesLog log).map (fun tp => (tp.1, sha256 (contents tp.2), tp.2)))
    ∧ ((finalizeStagedFiles sha256 contents log).readonlyPaths
        = (reduceFilesLog log).map (fun tp => tp.2))
    ∧ ∀ (t : FType) (p : String),
        (t, p) ∈ reduceFilesLog log
          ↔ match lastAD log p with
            | some lf => lf.event = FEvent.a ∧ lf.type = t
            | none => False := by
  refine ⟨?_, ?_, fun t p => reduceFilesLog_mem_iff log t p⟩
  · unfold finalizeStagedFiles
    rw [finalize_foldl]
    simp
  · unfold finalizeStagedFiles
    rw [finalize_foldl]
    simp

/-! ### Claim C3: opref write order in init_run_meta -/

/-- Claim C3 counterexample: with matching names and no attributes,
`init_run_meta` writes the initialized-timestamp file AFTER the opref file,
so the opref file is not preceded by every other meta file. -/
theorem init_run_meta_opref_not_last_counterexample :
    initRunMeta "op" "op" [] []
      = .ok [MetaWrite.schemaFile, MetaWrite.runIdFile, MetaWrite.opdefFile,
          MetaWrite.configFile, MetaWrite.cmdArgsFile, MetaWrite.cmdEnvFile,
          MetaWrite.oprefFile, MetaWrite.initializedFile]
    ∧ MetaWrite.initializedFile ≠ MetaWrite.oprefFile :=
  ⟨rfl, by decide⟩

/-- Claim C3 (amended): in `init_run_meta` every meta file EXCEPT the
initialized-timestamp file is written strictly before the operation-reference
file; the initialized-timestamp file alone is written after it (immediately
last). -/
theorem init_run_meta_write_order (oprefName opdefName : String)
    (userAttrs sysAttrs : List String) (h : oprefName = opdefName) :
    ∃ front : List MetaWrite,
      initRunMeta oprefName opdefName userAttrs sysAttrs
          = .ok (front ++ [MetaWrite.oprefFile, MetaWrite.initializedFile])
      ∧ MetaWrite.oprefFile ∉ front
      ∧ MetaWrite.initializedFile ∉ front := by
  refine ⟨[MetaWrite.schemaFile, MetaWrite.runIdFile, MetaWrite.opdefFile,
      MetaWrite.configFile, MetaWrite.cmdArgsFile, MetaWrite.cmdEnvFile]
      ++ (if userAttrs ≠ [] then userAttrs.map MetaWrite.userAttrFile else [])
      ++ (if sysAttrs ≠ [] then sysAttrs.map MetaWrite.sysAttrFile else []),
      ?_, ?_, ?_⟩
  · unfold initRunMeta
    rw [if_neg (by simp [h])]
  · by_cases hu : userAttrs = [] <;> by_cases hs : sysAttrs = [] <;>
      simp [hu, hs]
  · by_cases hu : userAttrs = [] <;> by_cases hs : sysAttrs = [] <;>
      simp [hu, hs]

theorem init_run_meta_write_order_witness :
    ∃ front : List MetaWrite,
      initRunMeta "train" "train" ["note"] []
          = .ok (front ++ [MetaWrite.oprefFile, MetaWrite.initializedFile])
      ∧ MetaWrite.oprefFile ∉ front
      ∧ MetaWrite.initializedFile ∉ front :=
  init_run_meta_write_order "train" "train" ["note"] [] rfl

/-! ### Scan helpers (claims C5 and C10) -/

theorem scanDiskEvent_some (pre : List (String × Option Int)) (t : FType) (df : DiskFile)
    (ev : LoggedFile) (h : scanDiskEvent pre t df = some ev) :
    ev.path = df.path ∧ ev.event ≠ FEvent.d ∧ ev.modified = some df.mtime := by
  unfold scanDiskEvent at h
  rcases hl : pyGet? pre df.path with - | mo
  · simp only [hl] at h
    injection h with h
    subst h
    exact ⟨rfl, fun hc => FEvent.noConfusion hc, rfl⟩
  · rcases mo with - | m
    · simp only [hl] at h
      injection h with h
      subst h
      exact ⟨rfl, fun hc => FEvent.noConfusion hc, rfl⟩
    · simp only [hl] at h
      by_cases hm : df.mtime = m
      · rw [if_pos hm] at h
        cases h
      · rw [if_neg hm] at h
        injection h with h
        subst h
        exact ⟨rfl, fun hc => FEvent.noConfusion hc, rfl⟩

theorem mem_applyLogFiles_add (log : List LoggedFile) (disk : List DiskFile) (t : FType)
    (df : DiskFile) (hdf : df ∈ disk)
    (hl : pyGet? (initPreFilesIndex log) df.path = none
        ∨ pyGet? (initPreFilesIndex log) df.path = some none) :
    (⟨FEvent.a, t, some df.mtime, df.path⟩ : LoggedFile) ∈ applyLogFiles log disk t := by
  simp only [applyLogFiles]
  refine List.mem_append_left _ ?_
  refine List.mem_filterMap.mpr ⟨df, hdf, ?_⟩
  unfold scanDiskEvent
  rcases hl with hl | hl <;> simp only [hl]

theorem mem_applyLogFiles_modify (log : List LoggedFile) (disk : List DiskFile)
    (t : FType) (df : DiskFile) (m0 : Int) (hdf : df ∈ disk)
    (hl : pyGet? (initPreFilesIndex log) df.path = some (some m0))
    (hne : df.mtime ≠ m0) :
    (⟨FEvent.m, t, some df.mtime, df.path⟩ : LoggedFile) ∈ applyLogFiles log disk t := by
  simp only [applyLogFiles]
  refine List.mem_append_left _ ?_
  refine List.mem_filterMap.mpr ⟨df, hdf, ?_⟩
  unfold scanDiskEvent
  simp only [hl]
  rw [if_neg hne]

theorem mem_applyLogFiles_delete (log : List LoggedFile) (disk : List DiskFile)
    (t : FType) (p : String) (v : Option Int)
    (hl : pyGet? (initPreFilesIndex log) p = some v)
    (hnd : p ∉ disk.map (fun df => df.path)) :
    (⟨FEvent.d, t, none, p⟩ : LoggedFile) ∈ applyLogFiles log disk t := by
  simp only [applyLogFiles]
  refine List.mem_append_right _ ?_
  refine List.mem_filterMap.mpr ⟨(p, v), ?_, ?_⟩
  · exact (pyGet?_eq_some_iff_mem _ (keysNodup_initPreFilesIndex log) p v).mp hl
  · rw [if_neg hnd]

theorem applyLogFiles_no_event (log : List LoggedFile) (disk : List DiskFile)
    (t : FType) (df : DiskFile)
    (hnodup : (disk.map (fun df => df.path)).Nodup) (hdf : df ∈ disk)
    (hl : pyGet? (initPreFilesIndex log) df.path = some (some df.mtime)) :
    ∀ ev ∈ applyLogFiles log disk t, ev.path ≠ df.path := by
  intro ev hev
  simp only [applyLogFiles] at hev
  rcases List.mem_append.mp hev with hev | hev
  · obtain ⟨df', hdf', hse⟩ := List.mem_filterMap.mp hev
    obtain ⟨hpath, -, -⟩ := scanDiskEvent_some _ _ _ _ hse
    rw [hpath]
    intro hpp
    have hdd : df' = df := List.inj_on_of_nodup_map hnodup hdf' hdf hpp
    subst hdd
    unfold scanDiskEvent at hse
    simp only [hl] at hse
    simp at hse
  · obtain ⟨pr, hpr, hse⟩ := List.mem_filterMap.mp hev
    by_cases hin : pr.1 ∈ disk.map (fun df => df.path)
    · rw [if_pos hin] at hse
      cases hse
    · rw [if_neg hin] at hse
      injection hse with hse
      subst hse
      intro hpp
      have hpp2 : pr.1 = df.path := hpp
      exact hin (by rw [hpp2]; exact List.mem_map.mpr ⟨df, hdf, rfl⟩)

theorem applyLogFiles_delete_shape (log : List LoggedFile) (disk : List DiskFile)
    (t : FType) (ev : LoggedFile)
    (hev : ev ∈ applyLogFiles log disk t) (hd : ev.event = FEvent.d) :
    ev.modified = none ∧ ev.path ∉ disk.map (fun df => df.path) := by
  simp only [applyLogFiles] at hev
  rcases List.mem_append.mp hev with hev | hev
  · obtain ⟨df', -, hse⟩ := List.mem_filterMap.mp hev
    obtain ⟨-, hne, -⟩ := scanDiskEvent_some _ _ _ _ hse
    exact absurd hd hne
  · obtain ⟨pr, -, hse⟩ := List.mem_filterMap.mp hev
    by_cases hin : pr.1 ∈ disk.map (fun df => df.path)
    · rw [if_pos hin] at hse
      cases hse
    · rw [if_neg hin] at hse
      injection hse with hse
      subst hse
      exact ⟨rfl, hin⟩

theorem applyLogFiles_event_path_of_absent (log : List LoggedFile)
    (disk : List DiskFile) (t : FType) (p : String)
    (hnd : p ∉ disk.map (fun df => df.path)) :
    ∀ ev ∈ applyLogFiles log disk t, ev.path = p → ev = ⟨FEvent.d, t, none, p⟩ := by
  intro ev hev hp
  simp only [applyLogFiles] at hev
  rcases List.mem_append.mp hev with hev | hev
  · obtain ⟨df', hdf', hse⟩ := List.mem_filterMap.mp hev
    obtain ⟨hpath, -, -⟩ := scanDiskEvent_some _ _ _ _ hse
    exact absurd (by rw [← hp, hpath]; exact List.mem_map.mpr ⟨df', hdf', rfl⟩) hnd
  · obtain ⟨pr, hpr, hse⟩ := List.mem_filterMap.mp hev
    by_cases hin : pr.1 ∈ disk.map (fun df => df.path)
    · rw [if_pos hin] at hse
      cases hse
    · rw [if_neg hin] at hse
      injection hse with hse
      subst hse
      simp only at hp
      rw [hp]

theorem applyLogFiles_nil_nil (t : FType) : applyLogFiles [] [] t = [] := rfl

theorem applyLogFiles_nil_single (f : DiskFile) (t : FType) :
    applyLogFiles [] [f] t = [⟨FEvent.a, t, some f.mtime, f.path⟩] := rfl

theorem applyLogFiles_unchanged (f : DiskFile) (t : FType) :
    applyLogFiles [⟨FEvent.a, FType.s, some f.mtime, f.path⟩] [f] t = [] := by
  simp [applyLogFiles, scanDiskEvent, initPreFilesIndex, pySet, pyHas, pyGet?]

theorem stageScans_added (f : DiskFile) :
    stageScans [] [f] = [⟨FEvent.a, FType.s, some f.mtime, f.path⟩] := by
  simp only [stageScans, applyLogFiles_nil_single, List.nil_append,
    applyLogFiles_unchanged, List.append_nil]

theorem stageScans_unchanged (f : DiskFile) :
    stageScans [⟨FEvent.a, FType.s, some f.mtime, f.path⟩] [f] = [] := by
  simp only [stageScans, applyLogFiles_unchanged, List.append_nil]

/-! ### Claim C5 -/

/-- Claim C5 counterexample: after `[add s p, delete s p]` the spec's fold
("the set reconstructed by folding all prior log entries", delete removing
the path) is empty, so a scan of an empty disk should log nothing — but
`_apply_log_files` keeps the deleted path in its index and appends another
delete event for it. -/
theorem apply_log_files_deleted_path_counterexample :
    specKnownFiles [⟨FEvent.a, FType.s, some 5, "p"⟩, ⟨FEvent.d, FType.s, none, "p"⟩] = []
    ∧ specScan [⟨FEvent.a, FType.s, some 5, "p"⟩, ⟨FEvent.d, FType.s, none, "p"⟩]
        [] FType.d = []
    ∧ applyLogFiles [⟨FEvent.a, FType.s, some 5, "p"⟩, ⟨FEvent.d, FType.s, none, "p"⟩]
        [] FType.d = [⟨FEvent.d, FType.d, none, "p"⟩] :=
  ⟨rfl, rfl, rfl⟩

/-- Claim C5 (amended): a scan compares the log's INDEX (last event per path,
a delete keeping its path with an absent timestamp) against the disk: a path
missing from the index or indexed with an absent timestamp gets `add`; a path
whose indexed timestamp differs from the observed one gets `modify`; equal
timestamps produce no event; and every indexed path absent from disk gets
`delete` (even when its latest event was already a delete).  Staging twice
with one file added in between logs exactly one add event for it, and the
second stage's further scans record no duplicate. -/
theorem apply_log_files_scan_amended (log : List LoggedFile) (disk : List DiskFile)
    (t : FType) :
    (stageScans [] [] = []
      ∧ ∀ f : DiskFile,
          stageScans [] [f] = [⟨FEvent.a, FType.s, some f.mtime, f.path⟩]
          ∧ stageScans [⟨FEvent.a, FType.s, some f.mtime, f.path⟩] [f] = [])
    ∧ (∀ p : String,
        pyGet? (initPreFilesIndex log) p
          = match lastEvent log p with
            | some lf => some lf.modified
            | none => none)
    ∧ (∀ df ∈ disk,
        (pyGet? (initPreFilesIndex log) df.path = none
            ∨ pyGet? (initPreFilesIndex log) df.path = some none) →
          (⟨FEvent.a, t, some df.mtime, df.path⟩ : LoggedFile) ∈ applyLogFiles log disk t)
    ∧ (∀ df ∈ disk, ∀ m0 : Int,
        pyGet? (initPreFilesIndex log) df.path = some (some m0) → df.mtime ≠ m0 →
          (⟨FEvent.m, t, some df.mtime, df.path⟩ : LoggedFile) ∈ applyLogFiles log disk t)
    ∧ ((disk.map (fun df => df.path)).Nodup →
        ∀ df ∈ disk, pyGet? (initPreFilesIndex log) df.path = some (some df.mtime) →
          ∀ ev ∈ applyLogFiles log disk t, ev.path ≠ df.path)
    ∧ (∀ (p : String) (v : Option Int),
        pyGet? (initPreFilesIndex log) p = some v →
          p ∉ disk.map (fun df => df.path) →
          (⟨FEvent.d, t, none, p⟩ : LoggedFile) ∈ applyLogFiles log disk t) := by
  refine ⟨⟨rfl, fun f => ⟨stageScans_added f, stageScans_unchanged f⟩⟩,
    fun p => initPreFilesIndex_lookup log p,
    fun df hdf hl => mem_applyLogFiles_add log disk t df hdf hl,
    fun df hdf m0 hl hne => mem_applyLogFiles_modify log disk t df m0 hdf hl hne,
    fun hnodup df hdf hl => applyLogFiles_no_event log disk t df hnodup hdf hl,
    fun p v hl hnd => mem_applyLogFiles_delete log disk t p v hl hnd⟩

theorem apply_log_files_scan_amended_witness :
    (⟨FEvent.d, FType.d, none, "p"⟩ : LoggedFile)
      ∈ applyLogFiles [⟨FEvent.a, FType.s, some 5, "p"⟩, ⟨FEvent.d, FType.s, none, "p"⟩]
          [] FType.d :=
  (apply_log_files_scan_amended
      [⟨FEvent.a, FType.s, some 5, "p"⟩, ⟨FEvent.d, FType.s, none, "p"⟩] [] FType.d
    ).2.2.2.2.2 "p" none rfl (by simp)

/-! ### Claim C10 -/

/-- Claim C10: the pre-scan index keeps a path whose latest log event is a
delete, mapping it to an absent timestamp; while such a path stays absent
from disk every scan appends another delete event for it (and the appended
log still has a delete as the path's latest event, so this repeats); if the
path reappears on disk it is logged as an add, not a modify. -/
theorem pre_files_index_keeps_deleted (log : List LoggedFile) (disk : List DiskFile)
    (t : FType) (p : String)
    (hwf : deleteEventsUnstamped log)
    (hdel : latestEventIsDelete log p = true) :
    pyGet? (initPreFilesIndex log) p = some none
    ∧ (p ∉ disk.map (fun df => df.path) →
        (⟨FEvent.d, t, none, p⟩ : LoggedFile) ∈ applyLogFiles log disk t
        ∧ deleteEventsUnstamped (log ++ applyLogFiles log disk t)
        ∧ latestEventIsDelete (log ++ applyLogFiles log disk t) p = true)
    ∧ (∀ m : Int, (⟨p, m⟩ : DiskFile) ∈ disk →
        (⟨FEvent.a, t, some m, p⟩ : LoggedFile) ∈ applyLogFiles log disk t) := by
  unfold latestEventIsDelete at hdel
  rcases hle : lastEvent log p with - | lf
  · rw [hle] at hdel
    cases hdel
  · rw [hle] at hdel
    have hevd : lf.event = FEvent.d := by simpa using hdel
    have hmem : lf ∈ log := by
      unfold lastEvent at hle
      exact List.mem_reverse.mp (List.mem_of_find?_eq_some hle)
    have hmod : lf.modified = none := hwf lf hmem hevd
    have hlook : pyGet? (initPreFilesIndex log) p = some none := by
      rw [initPreFilesIndex_lookup]
      simp only [hle, hmod]
    refine ⟨hlook, ?_, ?_⟩
    · intro hnd
      have hdelmem : (⟨FEvent.d, t, none, p⟩ : LoggedFile) ∈ applyLogFiles log disk t :=
        mem_applyLogFiles_delete log disk t p none hlook hnd
      refine ⟨hdelmem, ?_, ?_⟩
      · intro ev hev hevd2
        rcases List.mem_append.mp hev with h | h
        · exact hwf ev h hevd2
        · exact (applyLogFiles_delete_shape log disk t ev h hevd2).1
      · unfold latestEventIsDelete lastEvent
        rw [List.reverse_append, List.find?_append]
        have hsome : ((applyLogFiles log disk t).reverse.find?
            (fun lf => lf.path == p)).isSome := by
          rw [List.find?_isSome]
          exact ⟨_, List.mem_reverse.mpr hdelmem, by simp⟩
        obtain ⟨lf0, hlf0⟩ := Option.isSome_iff_exists.mp hsome
        rw [hlf0, Option.or_some]
        have hlf0mem : lf0 ∈ applyLogFiles log disk t :=
          List.mem_reverse.mp (List.mem_of_find?_eq_some hlf0)
        have hlf0p : lf0.path = p := by simpa using List.find?_some hlf0
        have := applyLogFiles_event_path_of_absent log disk t p hnd lf0 hlf0mem hlf0p
        rw [this]
        rfl
    · intro m hm
      exact mem_applyLogFiles_add log disk t ⟨p, m⟩ hm (Or.inr hlook)

theorem pre_files_index_keeps_deleted_witness :
    pyGet? (initPreFilesIndex
        [⟨FEvent.a, FType.s, some 5, "p"⟩, ⟨FEvent.d, FType.s, none, "p"⟩]) "p"
      = some none :=
  (pre_files_index_keeps_deleted
      [⟨FEvent.a, FType.s, some 5, "p"⟩, ⟨FEvent.d, FType.s, none, "p"⟩]
      [⟨"q", 3⟩] FType.r "p" (by unfold deleteEventsUnstamped; decide) rfl).1

/-! ### Claim C4: hook failure aborts the staging pipeline -/

theorem normalizeCRLF_cons2 (c1 c2 : Char) (rest : List Char) :
    normalizeCRLF (c1 :: c2 :: rest)
      = if c1 = '\r' ∧ c2 = '\n' then '\n' :: normalizeCRLF rest
        else c1 :: normalizeCRLF (c2 :: rest) := rfl

theorem normalizeCRLF_ne_nil : ∀ cs : List Char, cs ≠ [] → normalizeCRLF cs ≠ [] := by
  intro cs h
  rcases cs with - | ⟨c1, - | ⟨c2, rest⟩⟩
  · exact absurd rfl h
  · show ([c1] : List Char) ≠ []
    simp
  · rw [normalizeCRLF_cons2]
    by_cases hc : c1 = '\r' ∧ c2 = '\n'
    · rw [if_pos hc]; simp
    · rw [if_neg hc]; simp

theorem endsWithBreak_getLast? (cs : List Char) (h : endsWithBreak cs = true) :
    ∃ c, cs.getLast? = some c ∧ isLineBreak c = true := by
  unfold endsWithBreak at h
  rcases hg : cs.getLast? with - | c
  · rw [hg] at h
    exact Bool.noConfusion h
  · rw [hg] at h
    exact ⟨c, rfl, h⟩

theorem splitBreaks_ne_nil : ∀ cs : List Char, splitBreaks cs ≠ [] := by
  intro cs
  induction cs with
  | nil => simp [splitBreaks]
  | cons x xs ih =>
    unfold splitBreaks
    by_cases hx : isLineBreak x = true
    · simp [hx]
    · rw [if_neg hx]
      rcases hsp : splitBreaks xs with - | ⟨h, t⟩
      · exact absurd hsp ih
      · simp

theorem splitBreaks_length : ∀ cs : List Char,
    (splitBreaks cs).length = cs.countP isLineBreak + 1 := by
  intro cs
  induction cs with
  | nil => simp [splitBreaks]
  | cons x xs ih =>
    unfold splitBreaks
    by_cases hx : isLineBreak x = true
    · rw [if_pos hx, List.length_cons, ih, List.countP_cons_of_pos isLineBreak xs hx]
    · rw [if_neg hx]
      rcases hsp : splitBreaks xs with - | ⟨h, t⟩
      · exact absurd hsp (splitBreaks_ne_nil xs)
      · rw [hsp] at ih
        show ((x :: h) :: t).length = (x :: xs).countP isLineBreak + 1
        rw [List.countP_cons_of_neg isLineBreak xs hx, List.length_cons]
        simp only [List.length_cons] at ih
        omega

theorem pySplitlines_ne_nil (s : String) (h : s.data ≠ []) : pySplitlines s ≠ [] := by
  unfold pySplitlines
  rw [if_neg h]
  intro hc
  rw [List.map_eq_nil_iff] at hc
  by_cases hend : endsWithBreak (normalizeCRLF s.data) = true
  · rw [if_pos hend] at hc
    obtain ⟨c, hg, hbc⟩ := endsWithBreak_getLast? _ hend
    have hmem : c ∈ normalizeCRLF s.data := List.mem_of_getLast?_eq_some hg
    have hcount : 0 < (normalizeCRLF s.data).countP isLineBreak :=
      List.countP_pos_iff.mpr ⟨c, hmem, hbc⟩
    have hlen := splitBreaks_length (normalizeCRLF s.data)
    have := congrArg List.length hc
    rw [List.length_dropLast, hlen] at this
    simp only [List.length_nil] at this
    omega
  · rw [if_neg hend] at hc
    exact splitBreaks_ne_nil _ hc

theorem procArgs_str_eval (s : String) (line1 : String) (rest : List String)
    (hlines : pySplitlines s = line1 :: rest) :
    procArgs (.str s)
      = if startsWithShebang line1
        then .ok (.args [pyRstrip (dropChars line1 2), "-c", joinStrings rest], false)
        else .ok (.str s, true) := by
  unfold procArgs
  simp only [hlines]

theorem procArgs_ok_of_truthy (cmd : ExecCmd) (ht : cmd.truthy = true) :
    ∃ b, procArgs cmd = .ok (resolvedArgs cmd, b) := by
  match cmd with
  | .args l => exact ⟨false, rfl⟩
  | .str s =>
    have hs : s.data ≠ [] := by simpa [ExecCmd.truthy] using ht
    rcases hlines : pySplitlines s with - | ⟨line1, rest⟩
    · exact absurd hlines (pySplitlines_ne_nil s hs)
    · have he := procArgs_str_eval s line1 rest hlines
      by_cases hb : startsWithShebang line1 = true
      · rw [if_pos hb] at he
        refine ⟨false, ?_⟩
        rw [he]
        unfold resolvedArgs
        rw [he]
      · rw [if_neg hb] at he
        refine ⟨true, ?_⟩
        rw [he]
        unfold resolvedArgs
        rw [he]

theorem runPhaseExec_fails (phase : String) (cmd : ExecCmd) (exitCode : Int)
    (ht : cmd.truthy = true) (he : exitCode ≠ 0) :
    runPhaseExec phase cmd exitCode
      = .error (.execError phase (resolvedArgs cmd) exitCode) := by
  obtain ⟨b, hr⟩ := procArgs_ok_of_truthy cmd ht
  unfold runPhaseExec
  simp only [hr]
  rw [if_pos he]

theorem runHookGate_fails (phase : String) (cmd : ExecCmd) (e : Int)
    (ht : cmd.truthy = true) (he : e ≠ 0) :
    runHookGate phase (some (cmd, e))
      = .error (.execError phase (resolvedArgs cmd) e) := by
  unfold runHookGate
  show (if cmd.truthy = true then runPhaseExec phase cmd e else Except.ok ()) = _
  rw [if_pos ht]
  exact runPhaseExec_fails phase cmd e ht he

theorem runHookGate_passes (phase : String) (hook : Option (ExecCmd × Int))
    (hp : hookPasses hook) : runHookGate phase hook = .ok () := by
  match hook with
  | none => rfl
  | some (cmd, e) =>
    unfold runHookGate
    show (if cmd.truthy = true then runPhaseExec phase cmd e else Except.ok ()) = _
    unfold hookPasses at hp
    have hp2 : cmd.truthy = false ∨ e = 0 := hp
    by_cases ht : cmd.truthy = true
    · rw [if_pos ht]
      rcases hp2 with hf | he
      · rw [ht] at hf
        cases hf
      · obtain ⟨b, hr⟩ := procArgs_ok_of_truthy cmd ht
        unfold runPhaseExec
        simp only [hr]
        rw [if_neg (by simp [he])]
    · rw [if_neg ht]

/-- Claim C4: a staging-phase hook that is present (and truthy, since
`if exec:` gates each hook) and exits non-zero makes `_run_phase_exec` raise
`RunExecError(phase_name, resolved_args, exit_code)`, and `stage_run` aborts
immediately: none of the later phases runs. -/
theorem stage_run_hook_failure_aborts (env : StageEnv) (cmd : ExecCmd) (exitCode : Int)
    (ht : cmd.truthy = true) (he : exitCode ≠ 0) :
    (env.scHook = some (cmd, exitCode) →
      stageRun env = (["stage-sourcecode"],
          some (.execError "stage-sourcecode" (resolvedArgs cmd) exitCode))
        ∧ "apply-config" ∉ (stageRun env).1 ∧ "stage-runtime" ∉ (stageRun env).1
        ∧ "stage-dependencies" ∉ (stageRun env).1 ∧ "finalize" ∉ (stageRun env).1)
    ∧ (hookPasses env.scHook → env.rtHook = some (cmd, exitCode) →
      stageRun env = (["stage-sourcecode", "apply-config", "stage-runtime"],
          some (.execError "stage-runtime" (resolvedArgs cmd) exitCode))
        ∧ "stage-dependencies" ∉ (stageRun env).1 ∧ "finalize" ∉ (stageRun env).1)
    ∧ (hookPasses env.scHook → hookPasses env.rtHook →
        env.depHook = some (cmd, exitCode) →
      stageRun env = (["stage-sourcecode", "apply-config", "stage-runtime",
            "stage-dependencies"],
          some (.execError "stage-dependencies" (resolvedArgs cmd) exitCode))
        ∧ "finalize" ∉ (stageRun env).1) := by
  refine ⟨?_, ?_, ?_⟩
  · intro hsc
    have h1 : stageRun env = (["stage-sourcecode"],
        some (.execError "stage-sourcecode" (resolvedArgs cmd) exitCode)) := by
      unfold stageRun
      simp only [hsc, runHookGate_fails "stage-sourcecode" cmd exitCode ht he]
    refine ⟨h1, ?_, ?_, ?_, ?_⟩ <;> rw [h1]
    · show "apply-config" ∉ ["stage-sourcecode"]
      decide
    · show "stage-runtime" ∉ ["stage-sourcecode"]
      decide
    · show "stage-dependencies" ∉ ["stage-sourcecode"]
      decide
    · show "finalize" ∉ ["stage-sourcecode"]
      decide
  · intro hpass hrt
    have h1 : stageRun env = (["stage-sourcecode", "apply-config", "stage-runtime"],
        some (.execError "stage-runtime" (resolvedArgs cmd) exitCode)) := by
      unfold stageRun
      simp only [runHookGate_passes "stage-sourcecode" env.scHook hpass, hrt,
        runHookGate_fails "stage-runtime" cmd exitCode ht he]
    refine ⟨h1, ?_, ?_⟩ <;> rw [h1]
    · show "stage-dependencies" ∉ ["stage-sourcecode", "apply-config", "stage-runtime"]
      decide
    · show "finalize" ∉ ["stage-sourcecode", "apply-config", "stage-runtime"]
      decide
  · intro hpass1 hpass2 hdep
    have h1 : stageRun env = (["stage-sourcecode", "apply-config", "stage-runtime",
        "stage-dependencies"],
        some (.execError "stage-dependencies" (resolvedArgs cmd) exitCode)) := by
      unfold stageRun
      simp only [runHookGate_passes "stage-sourcecode" env.scHook hpass1,
        runHookGate_passes "stage-runtime" env.rtHook hpass2, hdep,
        runHookGate_fails "stage-dependencies" cmd exitCode ht he]
    refine ⟨h1, ?_⟩
    rw [h1]
    show "finalize" ∉ ["stage-sourcecode", "apply-config", "stage-runtime",
      "stage-dependencies"]
    decide

theorem stage_run_hook_failure_aborts_witness :
    stageRun ⟨some (.args ["deps.sh"], 3), none, none⟩
      = (["stage-sourcecode"],
          some (.execError "stage-sourcecode" (resolvedArgs (.args ["deps.sh"])) 3))
    ∧ "apply-config" ∉ (stageRun ⟨some (.args ["deps.sh"], 3), none, none⟩).1
    ∧ "stage-runtime" ∉ (stageRun ⟨some (.args ["deps.sh"], 3), none, none⟩).1
    ∧ "stage-dependencies" ∉ (stageRun ⟨some (.args ["deps.sh"], 3), none, none⟩).1
    ∧ "finalize" ∉ (stageRun ⟨some (.args ["deps.sh"], 3), none, none⟩).1 :=
  (stage_run_hook_failure_aborts ⟨some (.args ["deps.sh"], 3), none, none⟩
      (.args ["deps.sh"]) 3 rfl (by decide)).1 rfl

/-! ### Claim C6: malformed log lines and the error message -/

/-- Claim C6 (code bug): every malformed line — non-integer timestamp, wrong
field count (here on line 2), unknown event code, unknown type code — makes
`_iter_files_log` raise a `TypeError`, but the raised message is the LITERAL
template text (the `f` prefix is missing in the source at run_util.py line
570), which contains no digit at all, so the offending line number never
appears in it. -/
theorem files_log_decode_error_missing_lineno :
    iterFilesLog META_SCHEMA ["a s notanint p"] = .error (.badEncoding filesLogErrorMsg)
    ∧ iterFilesLog META_SCHEMA ["a s 5 ok", "a s 5"]
        = .error (.badEncoding filesLogErrorMsg)
    ∧ iterFilesLog META_SCHEMA ["z s 5 p"] = .error (.badEncoding filesLogErrorMsg)
    ∧ iterFilesLog META_SCHEMA ["a z 5 p"] = .error (.badEncoding filesLogErrorMsg)
    ∧ ∀ c ∈ filesLogErrorMsg.data, ¬c.isDigit :=
  ⟨rfl, rfl, rfl, rfl, by decide⟩

/-! ### Claim C8: run directory scanner -/

theorem iterRunsEntry_none (runName : String → String) (root : String) (e : DirEntryM)
    (h : endsWithMeta e.name = false ∨ e.opref = .missing ∨ e.opref = .badDecode) :
    iterRunsEntry runName root e = none := by
  unfold iterRunsEntry
  by_cases hm : endsWithMeta e.name = false
  · rw [if_pos hm]
  · rw [if_neg hm]
    rcases h with h | h | h
    · exact absurd h hm
    · rw [h]
    · rw [h]

theorem iterRunsEntry_some_iff (runName : String → String) (root : String)
    (e : DirEntryM) (r : RunRec) :
    iterRunsEntry runName root e = some r
      ↔ endsWithMeta e.name = true
        ∧ ∃ o, e.opref = .decoded o ∧ r = mkRunRec runName root e.name o := by
  unfold iterRunsEntry
  by_cases hm : endsWithMeta e.name = false
  · rw [if_pos hm]
    simp [hm]
  · rw [if_neg hm]
    have hm2 : endsWithMeta e.name = true := Bool.not_eq_false _ ▸ (by simpa using hm)
    rcases ho : e.opref with - | - | o
    · simp [ho]
    · simp [ho]
    · simp only [ho, hm2, true_and, Option.some_inj, OprefState.decoded.injEq]
      constructor
      · intro hh
        exact ⟨o, rfl, hh.symm⟩
      · rintro ⟨o2, rfl, hr⟩
        exact hr.symm

/-- Claim C8: listing runs yields exactly the entries whose name ends with
`.meta`, whose opref file exists, and whose opref file decodes; an entry
whose opref is missing or fails to decode is silently dropped without
affecting the rest of the listing, and `list_runs` (default filter, no sort)
returns exactly `_iter_runs`'s output. -/
theorem list_runs_meta_opref_filter (runName : String → String) (root : String)
    (entries : List DirEntryM) :
    (listRuns runName root entries none = iterRuns runName root entries)
    ∧ (∀ r : RunRec, r ∈ iterRuns runName root entries
        ↔ ∃ e ∈ entries, endsWithMeta e.name = true
            ∧ ∃ o, e.opref = .decoded o ∧ r = mkRunRec runName root e.name o)
    ∧ (∀ (e : DirEntryM) (l1 l2 : List DirEntryM),
        (endsWithMeta e.name = false ∨ e.opref = .missing ∨ e.opref = .badDecode) →
        iterRuns runName root (l1 ++ e :: l2) = iterRuns runName root (l1 ++ l2)) := by
  refine ⟨?_, ?_, ?_⟩
  · unfold listRuns
    simp
  · intro r
    unfold iterRuns
    rw [List.mem_filterMap]
    constructor
    · rintro ⟨e, he, hfe⟩
      exact ⟨e, he, (iterRunsEntry_some_iff _ _ _ _).mp hfe⟩
    · rintro ⟨e, he, h1, o, h2, h3⟩
      exact ⟨e, he, (iterRunsEntry_some_iff _ _ _ _).mpr ⟨h1, o, h2, h3⟩⟩
  · intro e l1 l2 h
    unfold iterRuns
    rw [List.filterMap_append, List.filterMap_append, List.filterMap_cons,
      iterRunsEntry_none _ _ _ h]

theorem list_runs_meta_opref_filter_witness :
    iterRuns (fun n => n) "/runs"
        ([⟨"a.meta", OprefState.decoded "op"⟩]
          ++ (⟨"b.meta", OprefState.badDecode⟩ : DirEntryM) :: [])
      = iterRuns (fun n => n) "/runs" ([⟨"a.meta", OprefState.decoded "op"⟩] ++ []) :=
  (list_runs_meta_opref_filter (fun n => n) "/runs" []).2.2
    ⟨"b.meta", OprefState.badDecode⟩ [⟨"a.meta", OprefState.decoded "op"⟩] []
    (Or.inr (Or.inr rfl))

/-! ### Claim C7: command resolution -/

theorem splitBreaks_cons (x : Char) (xs : List Char) :
    splitBreaks (x :: xs)
      = if isLineBreak x then [] :: splitBreaks xs
        else
          match splitBreaks xs with
          | [] => [[x]]
          | h :: t => (x :: h) :: t := rfl

theorem splitBreaks_shape : ∀ cs : List Char,
    splitBreaks cs
      = cs.takeWhile (fun x => !isLineBreak x)
        :: (match cs.dropWhile (fun x => !isLineBreak x) with
            | [] => []
            | _ :: ys => splitBreaks ys) := by
  intro cs
  induction cs with
  | nil => rfl
  | cons x xs ih =>
    by_cases hx : isLineBreak x = true
    · rw [splitBreaks_cons, if_pos hx, List.takeWhile_cons_of_neg (by simp [hx]),
        List.dropWhile_cons_of_neg (by simp [hx])]
    · rw [splitBreaks_cons, if_neg hx, List.takeWhile_cons_of_pos (by simp [hx]),
        List.dropWhile_cons_of_pos (by simp [hx]), ih]

theorem splitBreaks_flatten : ∀ cs : List Char,
    (splitBreaks cs).flatten = cs.filter (fun x => !isLineBreak x) := by
  intro cs
  induction cs with
  | nil => rfl
  | cons x xs ih =>
    by_cases hx : isLineBreak x = true
    · rw [splitBreaks_cons, if_pos hx, List.flatten_cons, ih, List.filter_cons]
      simp [hx]
    · rw [splitBreaks_cons, if_neg hx]
      rcases hsp : splitBreaks xs with - | ⟨h0, t0⟩
      · exact absurd hsp (splitBreaks_ne_nil _)
      · show ((x :: h0) :: t0).flatten = _
        rw [List.flatten_cons, List.filter_cons]
        rw [hsp, List.flatten_cons] at ih
        simp only [List.cons_append]
        rw [ih]
        simp [hx]

theorem splitBreaks_getLast?_of_ends : ∀ (cs : List Char) (c : Char),
    cs.getLast? = some c → isLineBreak c = true →
    (splitBreaks cs).getLast? = some [] := by
  intro cs
  induction cs with
  | nil => intro c h _; cases h
  | cons x xs ih =>
    intro c h hbc
    cases xs with
    | nil =>
      have hx : x = c := by simpa using h
      subst hx
      rw [splitBreaks_cons, if_pos hbc]
      rfl
    | cons y ys =>
      rw [List.getLast?_cons_cons] at h
      have hlast := ih c h hbc
      by_cases hx : isLineBreak x = true
      · rw [splitBreaks_cons, if_pos hx]
        rcases hsp : splitBreaks (y :: ys) with - | ⟨h0, t0⟩
        · exact absurd hsp (splitBreaks_ne_nil _)
        · rw [hsp] at hlast
          rw [List.getLast?_cons_cons]
          exact hlast
      · rw [splitBreaks_cons, if_neg hx]
        rcases hsp : splitBreaks (y :: ys) with - | ⟨h0, t0⟩
        · exact absurd hsp (splitBreaks_ne_nil _)
        · show ((x :: h0) :: t0).getLast? = some []
          rcases t0 with - | ⟨t1, ts⟩
          · have hlen := splitBreaks_length (y :: ys)
            rw [hsp] at hlen
            simp only [List.length_cons, List.length_nil] at hlen
            have hc0 : (y :: ys).countP isLineBreak = 0 := by omega
            exact absurd hbc
              (List.countP_eq_zero.mp hc0 c (List.mem_of_getLast?_eq_some h))
          · rw [hsp] at hlast
            rw [List.getLast?_cons_cons] at hlast
            rw [List.getLast?_cons_cons]
            exact hlast

theorem normalizeCRLF_filter_aux : ∀ (n : Nat) (cs : List Char), cs.length ≤ n →
    (normalizeCRLF cs).filter (fun c => !isLineBreak c)
      = cs.filter (fun c => !isLineBreak c) := by
  intro n
  induction n with
  | zero =>
    intro cs h
    have hnil : cs = [] := List.eq_nil_of_length_eq_zero (Nat.le_zero.mp h)
    subst hnil
    rfl
  | succ n ihn =>
    intro cs h
    rcases cs with - | ⟨c1, - | ⟨c2, rest⟩⟩
    · rfl
    · rfl
    · rw [normalizeCRLF_cons2]
      simp only [List.length_cons] at h
      by_cases hc : c1 = '\r' ∧ c2 = '\n'
      · obtain ⟨h1, h2⟩ := hc
        subst h1
        subst h2
        rw [if_pos ⟨rfl, rfl⟩]
        have e1 : ('\n' :: normalizeCRLF rest).filter (fun c => !isLineBreak c)
            = (normalizeCRLF rest).filter (fun c => !isLineBreak c) := rfl
        have e2 : ('\r' :: '\n' :: rest).filter (fun c => !isLineBreak c)
            = rest.filter (fun c => !isLineBreak c) := rfl
        rw [e1, e2]
        exact ihn rest (by omega)
      · rw [if_neg hc, List.filter_cons, List.filter_cons,
          ihn (c2 :: rest) (by simp only [List.length_cons]; omega)]

theorem normalizeCRLF_filter (cs : List Char) :
    (normalizeCRLF cs).filter (fun c => !isLineBreak c)
      = cs.filter (fun c => !isLineBreak c) :=
  normalizeCRLF_filter_aux cs.length cs (Nat.le_refl _)

theorem normalizeCRLF_takeWhile_aux : ∀ (n : Nat) (cs : List Char), cs.length ≤ n →
    (normalizeCRLF cs).takeWhile (fun c => !isLineBreak c)
      = cs.takeWhile (fun c => !isLineBreak c) := by
  intro n
  induction n with
  | zero =>
    intro cs h
    have hnil : cs = [] := List.eq_nil_of_length_eq_zero (Nat.le_zero.mp h)
    subst hnil
    rfl
  | succ n ihn =>
    intro cs h
    rcases cs with - | ⟨c1, - | ⟨c2, rest⟩⟩
    · rfl
    · rfl
    · rw [normalizeCRLF_cons2]
      simp only [List.length_cons] at h
      by_cases hc : c1 = '\r' ∧ c2 = '\n'
      · obtain ⟨h1, h2⟩ := hc
        subst h1
        subst h2
        rw [if_pos ⟨rfl, rfl⟩]
        rfl
      · rw [if_neg hc]
        by_cases hp : isLineBreak c1 = true
        · rw [List.takeWhile_cons_of_neg (by simp [hp]),
            List.takeWhile_cons_of_neg (by simp [hp])]
        · rw [List.takeWhile_cons_of_pos (by simp [hp]),
            List.takeWhile_cons_of_pos (by simp [hp]),
            ihn (c2 :: rest) (by simp only [List.length_cons]; omega)]

theorem normalizeCRLF_takeWhile (cs : List Char) :
    (normalizeCRLF cs).takeWhile (fun c => !isLineBreak c)
      = cs.takeWhile (fun c => !isLineBreak c) :=
  normalizeCRLF_takeWhile_aux cs.length cs (Nat.le_refl _)

theorem map_mk_data (l : List (List Char)) :
    (l.map String.mk).map String.data = l := by
  induction l with
  | nil => rfl
  | cons a t iht => simp [iht]

theorem pySplitlines_flatten (s : String) :
    ((pySplitlines s).map String.data).flatten
      = s.data.filter (fun c => !isLineBreak c) := by
  unfold pySplitlines
  by_cases h : s.data = []
  · rw [if_pos h, h]
    rfl
  · rw [if_neg h]
    show ((List.map String.mk (if endsWithBreak (normalizeCRLF s.data)
          then (splitBreaks (normalizeCRLF s.data)).dropLast
          else splitBreaks (normalizeCRLF s.data))).map String.data).flatten
        = s.data.filter (fun c => !isLineBreak c)
    by_cases hend : endsWithBreak (normalizeCRLF s.data) = true
    · rw [if_pos hend, map_mk_data]
      obtain ⟨c, hg, hbc⟩ := endsWithBreak_getLast? _ hend
      have hlast := splitBreaks_getLast?_of_ends (normalizeCRLF s.data) c hg hbc
      have hsplit : (splitBreaks (normalizeCRLF s.data)).dropLast ++ [[]]
          = splitBreaks (normalizeCRLF s.data) :=
        List.dropLast_append_getLast? [] (Option.mem_def.mpr hlast)
      have h2 : ((splitBreaks (normalizeCRLF s.data)).dropLast).flatten
          = (splitBreaks (normalizeCRLF s.data)).flatten := by
        conv_rhs => rw [← hsplit]
        rw [List.flatten_append]
        simp
      rw [h2, splitBreaks_flatten, normalizeCRLF_filter]
    · rw [if_neg hend, map_mk_data, splitBreaks_flatten, normalizeCRLF_filter]

theorem pySplitlines_head (s : String) (line1 : String) (rest : List String)
    (hlines : pySplitlines s = line1 :: rest) :
    line1.data = s.data.takeWhile (fun c => !isLineBreak c) := by
  unfold pySplitlines at hlines
  by_cases h : s.data = []
  · rw [if_pos h] at hlines
    cases hlines
  · rw [if_neg h] at hlines
    have hlines2 : (if endsWithBreak (normalizeCRLF s.data)
          then (splitBreaks (normalizeCRLF s.data)).dropLast
          else splitBreaks (normalizeCRLF s.data)).map String.mk
        = line1 :: rest := hlines
    rcases hsh : splitBreaks (normalizeCRLF s.data) with - | ⟨p0, ps⟩
    · exact absurd hsh (splitBreaks_ne_nil _)
    · have hp0 : p0 = (normalizeCRLF s.data).takeWhile (fun c => !isLineBreak c) := by
        have hshape := splitBreaks_shape (normalizeCRLF s.data)
        rw [hsh] at hshape
        exact (List.cons_eq_cons.mp hshape).1
      rw [hsh] at hlines2
      by_cases hend : endsWithBreak (normalizeCRLF s.data) = true
      · rw [if_pos hend] at hlines2
        rcases ps with - | ⟨p1, pss⟩
        · simp at hlines2
        · rw [List.dropLast_cons₂] at hlines2
          simp only [List.map_cons] at hlines2
          injection hlines2 with h1 h2
          rw [← h1]
          show p0 = s.data.takeWhile (fun c => !isLineBreak c)
          rw [hp0, normalizeCRLF_takeWhile]
      · rw [if_neg hend] at hlines2
        simp only [List.map_cons] at hlines2
        injection hlines2 with h1 h2
        rw [← h1]
        show p0 = s.data.takeWhile (fun c => !isLineBreak c)
        rw [hp0, normalizeCRLF_takeWhile]

theorem pySplitlines_rest_flatten (s : String) (line1 : String) (rest : List String)
    (hlines : pySplitlines s = line1 :: rest) :
    (rest.map String.data).flatten
      = (afterFirstLineChars s).filter (fun c => !isLineBreak c) := by
  have hf := pySplitlines_flatten s
  rw [hlines] at hf
  simp only [List.map_cons, List.flatten_cons] at hf
  have hhead := pySplitlines_head s line1 rest hlines
  have hsd : s.data.takeWhile (fun c => !isLineBreak c)
      ++ s.data.dropWhile (fun c => !isLineBreak c) = s.data :=
    List.takeWhile_append_dropWhile _ _
  have hsplit : s.data.filter (fun c => !isLineBreak c)
      = s.data.takeWhile (fun c => !isLineBreak c)
        ++ (afterFirstLineChars s).filter (fun c => !isLineBreak c) := by
    conv_lhs => rw [← hsd]
    rw [List.filter_append]
    congr 1
    · refine List.filter_eq_self.mpr ?_
      intro a ha
      have h3 := List.mem_takeWhile_imp ha
      exact h3
    · unfold afterFirstLineChars
      rcases hd : s.data.dropWhile (fun c => !isLineBreak c) with - | ⟨d0, ds⟩
      · rfl
      · have hd0 := List.head?_dropWhile_not (fun c => !isLineBreak c) s.data
        rw [hd] at hd0
        simp only [List.head?_cons] at hd0
        have hbrk : isLineBreak d0 = true := by simpa using hd0
        rcases ds with - | ⟨d1, ds2⟩
        · show ([d0].filter (fun c => !isLineBreak c))
            = (([] : List Char).filter (fun c => !isLineBreak c))
          rw [List.filter_cons]
          simp [hbrk]
        · by_cases hrn : d0 = '\r' ∧ d1 = '\n'
          · obtain ⟨hr1, hr2⟩ := hrn
            subst hr1
            subst hr2
            rfl
          · show ((d0 :: d1 :: ds2).filter (fun c => !isLineBreak c))
              = ((if d0 = '\r' ∧ d1 = '\n' then ds2 else d1 :: ds2).filter
                  (fun c => !isLineBreak c))
            rw [if_neg hrn, List.filter_cons]
            simp [hbrk]
  rw [hsplit, hhead] at hf
  exact List.append_cancel_left hf

/-- Claim C7 counterexample: for the shebang command `"#!sh\na\nb"` the rest
of the text after the first line is `"a\nb"`, but `_proc_args` passes
`"".join(rest)` — the remaining LINES concatenated WITHOUT their newlines —
so the inline script argument is `"ab"`, not the rest of the text. -/
theorem proc_args_shebang_join_counterexample :
    procArgs (.str "#!sh\na\nb") = .ok (.args ["sh", "-c", "ab"], false)
    ∧ String.mk (afterFirstLineChars "#!sh\na\nb") = "a\nb"
    ∧ ("ab" : String) ≠ "a\nb" :=
  ⟨rfl, rfl, by decide⟩

/-- Claim C7 (amended): a list command is passed verbatim and never through a
shell; a non-empty string whose first line (everything before the first line
terminator of `str.splitlines`: `\n`, `\r`, `\r\n`, `\v`, `\f`, ...) begins
with `#!` yields `[rest-of-first-line (right-stripped), "-c", script]` with
no shell, where `script` is the text after the first line terminator WITH
ALL ITS LINE TERMINATORS REMOVED (`"".join` of the remaining lines); any
other non-empty string runs as a shell command line; the empty string raises
`ValueError` (tuple unpacking of `"".splitlines() == []`). -/
theorem proc_args_resolution_amended (l : List String) (s : String)
    (line1 : String) (rest : List String) :
    (procArgs (.args l) = .ok (.args l, false))
    ∧ (procArgs (.str "") = .error ())
    ∧ (pySplitlines s = line1 :: rest → startsWithShebang line1 = true →
        procArgs (.str s)
          = .ok (.args [pyRstrip (dropChars line1 2), "-c", joinStrings rest], false)
        ∧ line1.data = firstLineChars s
        ∧ (joinStrings rest).data
            = (afterFirstLineChars s).filter (fun c => !isLineBreak c))
    ∧ (pySplitlines s = line1 :: rest → startsWithShebang line1 = false →
        procArgs (.str s) = .ok (.str s, true)) := by
  refine ⟨rfl, rfl, ?_, ?_⟩
  · intro hlines hb
    refine ⟨?_, ?_, ?_⟩
    · rw [procArgs_str_eval s line1 rest hlines, if_pos hb]
    · exact pySplitlines_head s line1 rest hlines
    · show (rest.map String.data).flatten = _
      exact pySplitlines_rest_flatten s line1 rest hlines
  · intro hlines hb
    rw [procArgs_str_eval s line1 rest hlines, if_neg (by simp [hb])]

theorem proc_args_resolution_amended_witness :
    procArgs (.str "#!sh\r\na\r\nb")
      = .ok (.args [pyRstrip (dropChars "#!sh" 2), "-c", joinStrings ["a", "b"]], false)
    ∧ ("#!sh" : String).data = firstLineChars "#!sh\r\na\r\nb"
    ∧ (joinStrings ["a", "b"]).data
        = (afterFirstLineChars "#!sh\r\na\r\nb").filter (fun c => !isLineBreak c) :=
  (proc_args_resolution_amended [] "#!sh\r\na\r\nb" "#!sh" ["a", "b"]).2.2.1 rfl rfl

/-! ### Concrete evaluations of the embedded functions
(checked against the behavior of the corresponding Python code) -/
example : procArgs (.str "#!sh\na\nb") = .ok (.args ["sh", "-c", "ab"], false) := rfl
example : procArgs (.str "echo hi") = .ok (.str "echo hi", true) := rfl
example : procArgs (.str "#!/bin/sh -x\necho a\necho b") = .ok (.args ["/bin/sh -x", "-c", "echo aecho b"], false) := rfl
example : procArgs (.str "") = .error () := rfl
example : procArgs (.args ["a", "b"]) = .ok (.args ["a", "b"], false) := rfl
example : pySplitlines "" = [] := rfl
example : pySplitlines "a\n" = ["a"] := rfl
example : pySplitlines "\n" = [""] := rfl
example : pySplitlines "a\n\nb" = ["a", "", "b"] := rfl
example : pySplitlines "a\r\nb" = ["a", "b"] := rfl
example : pySplitlines "a\rb" = ["a", "b"] := rfl
example : pySplitlines "a\r\n" = ["a"] := rfl
example : pySplitlines "\r\n" = [""] := rfl
example : pySplitlines "a\n\r" = ["a", ""] := rfl
example : pySplitlines "a\x0bb\x0cc" = ["a", "b", "c"] := rfl
example : pySplitlines "a\x85b" = ["a", "b"] := rfl
example : procArgs (.str "#!sh\r\na\r\nb") = .ok (.args ["sh", "-c", "ab"], false) := rfl
example : reduceFilesLog [⟨.a, .s, some 5, "p"⟩, ⟨.m, .r, some 6, "p"⟩] = [(.s, "p")] := rfl
example : specFoldFilesLog [⟨.a, .s, some 5, "p"⟩, ⟨.m, .r, some 6, "p"⟩] = [(.r, "p")] := rfl
example : applyLogFiles [⟨.a, .s, some 5, "p"⟩, ⟨.d, .s, none, "p"⟩] [] .d = [⟨.d, .d, none, "p"⟩] := rfl
example : specScan [⟨.a, .s, some 5, "p"⟩, ⟨.d, .s, none, "p"⟩] [] .d = [] := rfl
example : stageScans [] [] = [] := rfl
example : stageScans [] [⟨"f", 5⟩] = [⟨.a, .s, some 5, "f"⟩] := rfl
example : stageScans [⟨.a, .s, some 5, "f"⟩] [⟨"f", 5⟩] = [] := rfl
example : initRunMeta "op" "op" [] [] = .ok [.schemaFile, .runIdFile, .opdefFile, .configFile, .cmdArgsFile, .cmdEnvFile, .oprefFile, .initializedFile] := rfl
example : initRunMeta "op" "other" [] [] = .error "mismatched names in opref ('op') and opdef ('other')" := rfl
example : iterFilesLog "1" ["a s notanint p"] = .error (.badEncoding filesLogErrorMsg) := rfl
example : iterFilesLog "1" ["a s 5 p\n", "d r - q\n"] = .ok [⟨.a, .s, some 5, "p"⟩, ⟨.d, .r, none, "q"⟩] := rfl
example : iterFilesLog "2" [] = .error (.schemaError "2") := rfl
example : endsWithMeta "x.meta" = true := rfl
example : endsWithMeta ".meta" = true := rfl
example : endsWithMeta "meta" = false := rfl
example : iterRuns (fun n => n ++ "-name") "/runs" [⟨"x.meta", .decoded "op"⟩, ⟨"y.meta", .badDecode⟩, ⟨"z", .decoded "op"⟩, ⟨"w.meta", .missing⟩]
    = [⟨"x.meta", "op", "/runs/x.meta", "/runs/x", "x.meta-name"⟩] := rfl
example : stageRun ⟨some (.str "boom", 1), none, none⟩
    = (["stage-sourcecode"], some (.execError "stage-sourcecode" (.str "boom") 1)) := rfl
example : stageRun ⟨none, some (.args ["x"], 2), none⟩
    = (["stage-sourcecode", "apply-config", "stage-runtime"],
        some (.execError "stage-runtime" (.args ["x"]) 2)) := rfl
example : stageRun ⟨some (.str "", 1), none, none⟩
    = (["stage-sourcecode", "apply-config", "stage-runtime", "stage-dependencies", "finalize"], none) := rfl
example : decodeFilesLogLine (String.mk (encodeLoggedFile ⟨.a, .s, some 5, "p"⟩).data.dropLast) = .ok ⟨.a, .s, some 5, "p"⟩ := rfl
example : decodeFilesLogLine (String.mk (encodeLoggedFile ⟨.m, .r, some (-17), "my path"⟩).data.dropLast) = .ok ⟨.m, .r, some (-17), "my path"⟩ := rfl
example : decodeFilesLogLine (String.mk (encodeLoggedFile ⟨.d, .d, none, "p"⟩).data.dropLast) = .ok ⟨.d, .d, none, "p"⟩ := rfl
example : decodeFilesLogLine (String.mk (encodeLoggedFile ⟨.a, .s, some 0, "p"⟩).data.dropLast) = .ok ⟨.a, .s, none, "p"⟩ := rfl
example : decodeFilesLogLine "a s notanint p" = .error () := rfl
example : decodeFilesLogLine "a s 5" = .error () := rfl
example : decodeFilesLogLine "z s 5 p" = .error () := rfl
example : decodeFilesLogLine "a z 5 p" = .error () := rfl
example : pyParseInt "120" = some 120 := by decide
example : pyParseInt "-120" = some (-120) := by decide

end VistaML
